import Mathlib

/-!
Verification of the scioly-chat-bot document ingestion and retrieval engine.

The definitions below are shallow embeddings of the TypeScript source:
* `src/amplify/backend.ts` (shared utilities: `sanitizeText`,
  `extractTextFromBuffer`, `extractTextFromFile`, `computeEmbedding`, `cosine`),
* `src/amplify/functions/documents/handler.ts` (CSV splitting, team labels,
  tournament metadata, snippet building, slugs, upsert, import),
* `src/amplify/functions/chat/handler.ts` (`retrieveContext`).

JavaScript strings are modelled as `String` (lists of characters); byte
buffers as `List Nat`; external I/O (embedding backends, PDF/Word parsers,
the persisted record store's failure modes) as explicit oracle parameters;
the persisted Document store as a list of records with numeric ids.
-/

namespace Scioly

/-! ## Character and string primitives (JS semantics) -/

/-- The character class of JavaScript's `String.prototype.trim` and of `\s`
in regular expressions: ASCII whitespace plus the Unicode space separators,
line separators and the BOM. -/
def isJsWs (c : Char) : Bool :=
  let n := c.toNat
  (9 ≤ n && n ≤ 13) || n = 32 || n = 0xa0 || n = 0x1680 ||
  (0x2000 ≤ n && n ≤ 0x200a) || n = 0x2028 || n = 0x2029 ||
  n = 0x202f || n = 0x205f || n = 0x3000 || n = 0xfeff

/-- Strip leading and trailing JS whitespace from a character list. -/
def trimChars (cs : List Char) : List Char :=
  ((cs.dropWhile isJsWs).reverse.dropWhile isJsWs).reverse

/-- JS `s.trim()`. -/
def jsTrim (s : String) : String := ⟨trimChars s.data⟩

/-- JS `s.slice(0, n)` for a nonnegative bound. -/
def jsSlice (s : String) (n : Nat) : String := ⟨s.data.take n⟩

/-- Substring test on character lists: some suffix of `s` has `t` as prefix.
Models JS `s.includes(t)`. -/
def listContains (s t : List Char) : Bool :=
  s.tails.any (fun suf => t.isPrefixOf suf)

/-- JS `s.includes(t)`. -/
def strContains (s t : String) : Bool := listContains s.data t.data

/-- JS `s.toLowerCase()` (ASCII case mapping, which covers every string the
source manipulates). -/
def jsToLower (s : String) : String := ⟨s.data.map Char.toLower⟩

/-- A character of the JS regex class `\w`, namely `[A-Za-z0-9_]`. -/
def isWordChar (c : Char) : Bool :=
  ('a' ≤ c && c ≤ 'z') || ('A' ≤ c && c ≤ 'Z') || ('0' ≤ c && c ≤ '9') || c = '_'

/-- A lowercase ASCII letter or digit, the class `[a-z0-9]` used by the slug
regex. -/
def isLowerAlnum (c : Char) : Bool :=
  ('a' ≤ c && c ≤ 'z') || ('0' ≤ c && c ≤ '9')

/-- Split a character list at every character satisfying `p`, keeping empty
pieces, as JS `split` on a single-character class does. -/
def splitChars (p : Char → Bool) : List Char → List (List Char)
  | [] => [[]]
  | c :: rest =>
    match splitChars p rest with
    | t :: ts => if p c then [] :: t :: ts else (c :: t) :: ts
    | [] => if p c then [[], []] else [[c]]

/-! ## Path model (Node `path` module, POSIX flavour)

`path.basename` ignores trailing separators and keeps the part after the last
remaining separator; with a suffix argument it strips that suffix when the
basename ends with it and is not equal to it.  `path.extname` is the part of
the basename from its last dot, unless that dot is the leading character. -/

/-- The part of `cs` after the last `/`, once trailing slashes are dropped. -/
def basenameChars (cs : List Char) : List Char :=
  let trimmed := ((cs.reverse.dropWhile (fun c => c = '/'))).reverse
  trimmed.foldl (fun acc c => if c = '/' then [] else acc ++ [c]) []

/-- The suffix of `cs` starting at its last `.`, or `[]` when there is none. -/
def lastDotSuffix : List Char → List Char
  | [] => []
  | c :: rest =>
    if ('.' : Char) ∈ rest then lastDotSuffix rest
    else if c = '.' then c :: rest else []

/-- Node `path.extname`: the last-dot suffix of the basename, not counting a
dot in leading position. -/
def extnameChars (cs : List Char) : List Char :=
  match basenameChars cs with
  | [] => []
  | _ :: rest => lastDotSuffix rest

/-- Node `path.basename(p)`. -/
def jsBasename (s : String) : String := ⟨basenameChars s.data⟩

/-- Node `path.extname(p)`. -/
def jsExtname (s : String) : String := ⟨extnameChars s.data⟩

/-- Node `path.basename(p, suffix)`: the basename with `suffix` removed when
the basename ends with it and differs from it. -/
def jsBasenameDropSuffix (s suffix : String) : String :=
  let base := basenameChars s.data
  if suffix.data ≠ [] ∧ base ≠ suffix.data ∧ suffix.data.isSuffixOf base then
    ⟨base.take (base.length - suffix.data.length)⟩
  else ⟨base⟩

/-! ## CSV splitting and team labels
(`splitCsvLine`, `normalizeSchoolTeamLabel` in
`src/amplify/functions/documents/handler.ts`) -/

/-- Loop of `splitCsvLine`: walk the remaining characters with the
`inQuotes` flag and the current field accumulator, pushing trimmed fields at
unquoted commas and at the end. -/
def splitCsvAux : List Char → Bool → List Char → List String
  | [], _, cur => [jsTrim ⟨cur⟩]
  | '"' :: '"' :: rest2, true, cur => splitCsvAux rest2 true (cur ++ ['"'])
  | '"' :: rest, true, cur => splitCsvAux rest false cur
  | '"' :: rest, false, cur => splitCsvAux rest true cur
  | ',' :: rest, true, cur => splitCsvAux rest true (cur ++ [','])
  | ',' :: rest, false, cur => jsTrim ⟨cur⟩ :: splitCsvAux rest false []
  | c :: rest, inQ, cur => splitCsvAux rest inQ (cur ++ [c])

/-- `splitCsvLine(line)`: quote-aware comma splitter with doubled-quote
escaping; every emitted field is trimmed. -/
def splitCsvLine (line : String) : List String := splitCsvAux line.data false []

/-- The test `/^team\s+/i.test(rawTeam)`: the string opens with `team` in any
case followed by at least one whitespace character. -/
def startsWithTeamWs (cs : List Char) : Bool :=
  match cs with
  | t :: e :: a :: m :: w :: _ =>
    t.toLower = 't' && e.toLower = 'e' && a.toLower = 'a' && m.toLower = 'm' && isJsWs w
  | _ => false

/-- `normalizeSchoolTeamLabel(school, team)`. -/
def normalizeSchoolTeamLabel (school team : String) : String :=
  let schoolName := jsTrim school
  let rawTeam := jsTrim team
  if schoolName = "" then ""
  else if rawTeam = "" then schoolName ++ " Team Unspecified"
  else if startsWithTeamWs rawTeam.data then schoolName ++ " " ++ rawTeam
  else schoolName ++ " Team " ++ rawTeam

/-! ## Tournament metadata (`parseTournamentMeta`) -/

/-- The regex `/^(\d{4}-\d{2}-\d{2})_(.+)$/`: on success, the ten-character
date and the non-empty remainder after the underscore. -/
def matchDateUnderscore (cs : List Char) : Option (List Char × List Char) :=
  match cs with
  | a :: b :: c :: d :: e :: f :: g :: h :: i :: j :: k :: rest =>
    if a.isDigit && b.isDigit && c.isDigit && d.isDigit && e = '-' &&
       f.isDigit && g.isDigit && h = '-' && i.isDigit && j.isDigit &&
       k = '_' && rest ≠ [] then
      some ([a, b, c, d, e, f, g, h, i, j], rest)
    else none
  | _ => none

/-- `.replace(/_c$/i, '')`: drop a trailing `_c` (case-insensitive `c`). -/
def stripUnderscoreC (cs : List Char) : List Char :=
  match cs.reverse with
  | c :: '_' :: rest => if c = 'c' ∨ c = 'C' then rest.reverse else cs
  | _ => cs

/-- Length bound used for the termination of the run-collapsing rewrites. -/
theorem dropWhileLenLe (p : Char → Bool) (l : List Char) :
    (l.dropWhile p).length ≤ l.length := by
  induction l with
  | nil => simp
  | cons c rest ih =>
    by_cases h : p c
    · simp [List.dropWhile, h]; omega
    · simp [List.dropWhile, h]

/-- `.replace(/_+/g, ' ')`: every maximal run of underscores becomes one
space. -/
def underscoreRunsToSpaces : List Char → List Char
  | [] => []
  | '_' :: rest => ' ' :: underscoreRunsToSpaces (rest.dropWhile (fun c => c = '_'))
  | c :: rest => c :: underscoreRunsToSpaces rest
termination_by cs => cs.length
decreasing_by
  · exact Nat.lt_succ_of_le (dropWhileLenLe _ _)
  · simp

/-- `parseTournamentMeta(filename)`: derive `(date, tournament)` from the
filename stem, or `("unknown-date", stem)` when the stem lacks the
`YYYY-MM-DD_` prefix. -/
def parseTournamentMeta (filename : String) : String × String :=
  let base := jsBasenameDropSuffix filename (jsExtname filename)
  match matchDateUnderscore base.data with
  | none => ("unknown-date", base)
  | some (d, raw) =>
    (⟨d⟩, jsTrim ⟨underscoreRunsToSpaces (stripUnderscoreC raw)⟩)

/-! ## Scioly results snippet (`buildSciolyResultsSnippet`) -/

/-- Split at `/\r?\n/`: every `\r\n` or bare `\n` ends a line. -/
def splitLinesAux : List Char → List Char → List String
  | [], cur => [⟨cur⟩]
  | '\r' :: '\n' :: rest, cur => (⟨cur⟩ : String) :: splitLinesAux rest []
  | '\n' :: rest, cur => (⟨cur⟩ : String) :: splitLinesAux rest []
  | c :: rest, cur => splitLinesAux rest (cur ++ [c])

/-- `rawText.split(/\r?\n/)`. -/
def splitLines (s : String) : List String := splitLinesAux s.data []

/-- JS `Array.prototype.indexOf` on a string array: first index or `-1`. -/
def jsIndexOf (l : List String) (x : String) : Int :=
  match l.findIdx? (fun y => y = x) with
  | some i => (i : Int)
  | none => -1

/-- JS `cols[i] || ''` with a possibly negative index. -/
def jsAt (l : List String) (i : Int) : String :=
  if i < 0 then "" else l.getD i.toNat ""

/-- JS `Array.prototype.join('\n')`. -/
def joinNl : List String → String
  | [] => ""
  | [s] => s
  | s :: rest => s ++ "\n" ++ joinNl rest

/-- One data row of the normalizer: `none` when the row is skipped for a
missing team label, rank or total; otherwise the emitted fact line. -/
def sciolyRowLine (date tournament : String) (idxSchool idxTeam idxRank idxTotal idxState idxTrack : Int)
    (line : String) : Option String :=
  let cols := splitCsvLine line
  let school := jsAt cols idxSchool
  let team := if idxTeam ≥ 0 then jsAt cols idxTeam else ""
  let rank := jsAt cols idxRank
  let total := jsAt cols idxTotal
  let state := if idxState ≥ 0 then jsAt cols idxState else ""
  let track := if idxTrack ≥ 0 then jsAt cols idxTrack else ""
  let teamLabel := normalizeSchoolTeamLabel school team
  if teamLabel = "" ∨ rank = "" ∨ total = "" then none
  else
    some (date ++ " | " ++ tournament ++ " | " ++ teamLabel ++ " | rank=" ++ rank ++
      " | total=" ++ total ++
      (if state ≠ "" then " | state=" ++ state else "") ++
      (if track ≠ "" then " | track=" ++ track else ""))

/-- The two fixed instruction lines and the per-row fact lines, before the
final join and 24000-character cap. -/
def sciolyNormalizedLines (filename date tournament : String)
    (idxSchool idxTeam idxRank idxTotal idxState idxTrack : Int)
    (dataLines : List String) : List String :=
  ("Scioly results extracted from " ++ jsBasename filename ++ ".") ::
  "Treat each team label as distinct (example: Team A vs Team B)." ::
  dataLines.filterMap
    (sciolyRowLine date tournament idxSchool idxTeam idxRank idxTotal idxState idxTrack)

/-- `buildSciolyResultsSnippet(rawText, filename)`. -/
def buildSciolyResultsSnippet (rawText filename : String) : String :=
  let lines := ((splitLines rawText).map jsTrim).filter (fun l => l ≠ "")
  match lines with
  | l0 :: l1 :: rest =>
    let headers := (splitCsvLine l0).map jsToLower
    let idxSchool := jsIndexOf headers "school"
    let idxTeam := jsIndexOf headers "team"
    let idxRank := jsIndexOf headers "rank"
    let idxTotal := jsIndexOf headers "total"
    let idxState := jsIndexOf headers "state"
    let idxTrack := jsIndexOf headers "track"
    if idxSchool < 0 ∨ idxRank < 0 ∨ idxTotal < 0 then jsSlice rawText 4000
    else
      let meta := parseTournamentMeta filename
      jsSlice
        (joinNl (sciolyNormalizedLines filename meta.1 meta.2
          idxSchool idxTeam idxRank idxTotal idxState idxTrack (l1 :: rest)))
        24000
  | _ => jsSlice rawText 4000

/-- The claim's CSV input: header `school,team,rank,total,state` and the one
data row `"Lincoln HS","A",1,120,"CA"`. -/
def sampleResultsCsv : String :=
  "school,team,rank,total,state\n\"Lincoln HS\",\"A\",1,120,\"CA\""

/-! ## Topic slugs -/

/-- Every maximal run of characters outside `[a-z0-9]` becomes one
underscore: `.replace(/[^a-z0-9]+/g, '_')`. -/
def nonAlnumRunsToUnderscore : List Char → List Char
  | [] => []
  | c :: rest =>
    if isLowerAlnum c then c :: nonAlnumRunsToUnderscore rest
    else '_' :: nonAlnumRunsToUnderscore (rest.dropWhile (fun d => !isLowerAlnum d))
termination_by cs => cs.length
decreasing_by
  · simp
  · exact Nat.lt_succ_of_le (dropWhileLenLe _ _)

/-- Drop one leading underscore, if any. -/
def dropOneLeadUnderscore (l : List Char) : List Char :=
  match l with
  | c :: r => if c = '_' then r else c :: r
  | [] => []

/-- `.replace(/^_|_$/g, '')`: remove one leading and one trailing
underscore. -/
def stripEdgeUnderscores (cs : List Char) : List Char :=
  (dropOneLeadUnderscore (dropOneLeadUnderscore cs).reverse).reverse

/-- Join words with a separator (the shape `word (sep word)*` of well-formed
topic labels and of their slugs). -/
def joinWith (sep : List Char) : List (List Char) → List Char
  | [] => []
  | [w] => w
  | w :: rest => w ++ sep ++ joinWith sep rest

/-- `topicToSlug(topic)`. -/
def topicToSlug (topic : String) : String :=
  ⟨stripEdgeUnderscores (nonAlnumRunsToUnderscore (jsToLower topic).data)⟩

/-- `slugToTopic(slug)`. -/
def slugToTopic (slug : String) : String :=
  jsTrim ⟨slug.data.map (fun c => if c = '_' then ' ' else c)⟩

/-- `buildSnippet(topic, text, relName, ext)`: the tabular normalizer for the
reserved topic and `.csv` hint, plain 4000-character truncation otherwise. -/
def buildSnippet (topic : Option String) (text : String) (relName ext : String) : String :=
  if topic = some "scioly results" ∧ ext = ".csv" then
    buildSciolyResultsSnippet text relName
  else jsSlice text 4000

/-! ## Text extractor (`sanitizeText`, `extractTextFromBuffer`,
`extractTextFromFile` in the shared utilities)

The external parsers (`pdf-parse`, `mammoth`) and the byte decoders are
modelled as oracle parameters; an `Except.error` models a thrown exception. -/

/-- The regex class `[\x00-\x08\x0B-\x0C\x0E-\x1F\x7F-\x9F]` of control
characters rewritten to spaces by `sanitizeText`. -/
def isStrippedControl (c : Char) : Bool :=
  let n := c.toNat
  n ≤ 8 || n = 0x0b || n = 0x0c || (0x0e ≤ n && n ≤ 0x1f) || (0x7f ≤ n && n ≤ 0x9f)

/-- `sanitizeText(text)`: empty input is returned as-is; otherwise null bytes
are deleted, the remaining C0/C1 controls become spaces, and the result is
trimmed. -/
def sanitizeText (s : String) : String :=
  if s = "" then s
  else jsTrim ⟨(s.data.filter (fun c => c ≠ Char.ofNat 0)).map
    (fun c => if isStrippedControl c then ' ' else c)⟩

/-- `extractTextFromBuffer(buffer, ext)`.  The PDF parser's exception
propagates (the source has no try/catch around `pdfParse`); a Word parser
failure yields the empty string; anything else decodes as UTF-8. -/
def extractTextFromBuffer (pdfParse mammothRaw : List Nat → Except Unit String)
    (utf8Decode : List Nat → String) (buffer : List Nat) (ext : String) :
    Except Unit String :=
  let normalizedExt := jsToLower ext
  if normalizedExt = ".pdf" then
    match pdfParse buffer with
    | Except.ok t => Except.ok (sanitizeText t)
    | Except.error e => Except.error e
  else if normalizedExt = ".docx" ∨ normalizedExt = ".doc" then
    match mammothRaw buffer with
    | Except.ok t => Except.ok (sanitizeText t)
    | Except.error _ => Except.ok ""
  else Except.ok (sanitizeText (utf8Decode buffer))

/-- `extractTextFromFile(filePath)`: read the file (a read failure
propagates) and extract by the lowercased extension. -/
def extractTextFromFile (pdfParse mammothRaw : List Nat → Except Unit String)
    (utf8Decode : List Nat → String) (readFile : String → Except Unit (List Nat))
    (filePath : String) : Except Unit String :=
  let ext := jsToLower (jsExtname filePath)
  match readFile filePath with
  | Except.ok b => extractTextFromBuffer pdfParse mammothRaw utf8Decode b ext
  | Except.error e => Except.error e

/-! ## Cosine similarity (`cosine` in the shared utilities), over ℝ -/

/-- Pointwise dot product of two equal-length real vectors (the loop
accumulating `dot`, and—applied to a vector with itself—`na`/`nb`). -/
def dotList : List ℝ → List ℝ → ℝ
  | x :: xs, y :: ys => x * y + dotList xs ys
  | _, _ => 0

/-- `cosine(a, b)`: `-1` for missing or length-mismatched vectors, else the
dot product over the product of norms with `1e-12` added to the
denominator. -/
noncomputable def cosine (a b : Option (List ℝ)) : ℝ :=
  match a, b with
  | some xs, some ys =>
    if xs.length = ys.length then
      dotList xs ys /
        (Real.sqrt (dotList xs xs) * Real.sqrt (dotList ys ys) + 1 / (10 : ℝ) ^ 12)
    else -1
  | _, _ => -1

/-! ## Persisted Document store and corpus synchronizer
(`resolveExistingPathKey`, `upsertDocument`, `importTopic`, `preprocess`) -/

/-- One persisted Document record. -/
structure Doc where
  id : Nat
  filename : String
  path : String
  topic : Option String
  text : String
  embedding : String
  embedding_provider : Option String
deriving DecidableEq, Repr

/-- The persisted Document collection, with the id the backend would assign
to the next created record. -/
structure Store where
  docs : List Doc
  nextId : Nat
deriving DecidableEq, Repr

/-- One enumerated import source.  `text` is what `loadText` would return and
`loadThrows` whether it would throw instead; `embedResult` is the serialized
embedding the provider call would yield (`none` for "unavailable");
`writeFails` whether the store write for this source errors. -/
structure Source where
  sourcePath : String
  filename : String
  topic : Option String
  ext : String
  text : String
  loadThrows : Bool
  embedResult : Option String
  writeFails : Bool
deriving DecidableEq, Repr

/-- `resolveExistingPathKey(p)`: empty stays empty, `s3://` URIs are taken
verbatim, local paths go through `path.resolve` (the abstract
`resolvePath`). -/
def resolveExistingPathKey (resolvePath : String → String) (p : String) : String :=
  if p = "" then ""
  else if "s3://".isPrefixOf p then p
  else resolvePath p

/-- `Map.prototype.get` on an association list (first binding wins). -/
def assocFind (m : List (String × Doc)) (k : String) : Option Doc :=
  match m.find? (fun e => e.1 = k) with
  | some e => some e.2
  | none => none

/-- `Map.prototype.set`: bind `k` to `v`, replacing any previous binding. -/
def assocSet (m : List (String × Doc)) (k : String) (v : Doc) : List (String × Doc) :=
  (k, v) :: m.filter (fun e => e.1 ≠ k)

/-- `new Map(existingDocs.map(d => [resolveExistingPathKey(d.path), d])
.filter(([k]) => Boolean(k)))`: later entries overwrite earlier ones and
empty keys are dropped. -/
def buildLookup (resolvePath : String → String) (docs : List Doc) : List (String × Doc) :=
  docs.foldl (fun m d =>
    if resolveExistingPathKey resolvePath d.path = "" then m
    else assocSet m (resolveExistingPathKey resolvePath d.path) d) []

/-- Per-source outcome of `upsertDocument`. -/
inductive UpsertResult
  | added
  | updated
  | skipped
deriving DecidableEq, Repr

/-- The record fields written for a source (shared by the create and update
calls). -/
def docFromSource (s : Source) (provider : String) (theId : Nat) (snippet : String)
    (emb : Option String) : Doc :=
  { id := theId, filename := s.filename, path := s.sourcePath, topic := s.topic,
    text := snippet,
    embedding := match emb with | some e => e | none => "",
    embedding_provider := match emb with | some _ => some provider | none => none }

/-- The record written for a source: the snippet is the built snippet and
the embedding is requested only under a non-empty provider
(`provider ? await computeEmbedding(snippet, provider) : null`). -/
def upsertDoc (s : Source) (provider : String) (theId : Nat) : Doc :=
  docFromSource s provider theId (buildSnippet s.topic s.text s.filename s.ext)
    (if provider ≠ "" then s.embedResult else none)

/-- `upsertDocument(existingByPath, source, provider)`: load the text (a
throw propagates), build the snippet, skip when it trims empty, then update
the looked-up record or create a fresh one, registering the written record
in the lookup.  A failing store write yields `skipped` with nothing
changed. -/
def upsertDocument (st : Store) (lookup : List (String × Doc)) (s : Source)
    (provider : String) : Except Unit (Store × List (String × Doc) × UpsertResult) :=
  if s.loadThrows then Except.error ()
  else if jsTrim (buildSnippet s.topic s.text s.filename s.ext) = "" then
    Except.ok (st, lookup, UpsertResult.skipped)
  else
    match assocFind lookup s.sourcePath with
    | some existing =>
      if s.writeFails then Except.ok (st, lookup, UpsertResult.skipped)
      else
        Except.ok
          ({ st with docs := st.docs.map (fun d =>
              if d.id = existing.id then upsertDoc s provider existing.id else d) },
           assocSet lookup s.sourcePath (upsertDoc s provider existing.id),
           UpsertResult.updated)
    | none =>
      if s.writeFails then Except.ok (st, lookup, UpsertResult.skipped)
      else
        Except.ok
          ({ docs := st.docs ++ [upsertDoc s provider st.nextId], nextId := st.nextId + 1 },
           assocSet lookup s.sourcePath (upsertDoc s provider st.nextId),
           UpsertResult.added)

/-- The import loop: each source is upserted inside a try/catch, so a throw
skips the source and the batch continues; `added`/`updated` count the
non-skipped outcomes. -/
def runSources (st : Store) (lookup : List (String × Doc)) (sources : List Source)
    (provider : String) (added updated : Nat) : Store × Nat × Nat :=
  match sources with
  | [] => (st, added, updated)
  | s :: rest =>
    match upsertDocument st lookup s provider with
    | Except.error _ => runSources st lookup rest provider added updated
    | Except.ok (st', lookup', UpsertResult.added) =>
      runSources st' lookup' rest provider (added + 1) updated
    | Except.ok (st', lookup', UpsertResult.updated) =>
      runSources st' lookup' rest provider added (updated + 1)
    | Except.ok (st', lookup', UpsertResult.skipped) =>
      runSources st' lookup' rest provider added updated

/-- Result shape of the exposed document operations. -/
structure ImportOutcome where
  store : Store
  ok : Bool
  message : String
  total : Nat
  added : Nat
  updated : Nat
deriving Repr

/-- `importTopic(topic, provider)` over an already-enumerated source list:
fail fast when enumeration is empty, otherwise build the path lookup from
the listed Documents and run the loop.  `total` is the pre-run Document
count plus the adds. -/
def importTopic (resolvePath : String → String) (bucketDisplay s3Prefix : String)
    (st : Store) (topicLabel : String) (sources : List Source) (provider : String) :
    ImportOutcome :=
  if sources.length = 0 then
    { store := st, ok := false,
      message := "No files found for topic \"" ++ topicLabel ++ "\". Checked local_docs/" ++
        topicToSlug topicLabel ++ " and s3://" ++ bucketDisplay ++ "/" ++ s3Prefix ++
        topicToSlug topicLabel ++ "/",
      total := 0, added := 0, updated := 0 }
  else
    let lookup := buildLookup resolvePath st.docs
    let r := runSources st lookup sources provider 0 0
    { store := r.1, ok := true,
      message := "Imported " ++ toString r.2.1 ++ " files, updated " ++ toString r.2.2 ++ " files",
      total := st.docs.length + r.2.1, added := r.2.1, updated := r.2.2 }

/-- `preprocess(provider)` over an already-enumerated source list: the same
loop without the empty-enumeration fast failure. -/
def preprocessRun (resolvePath : String → String) (st : Store) (sources : List Source)
    (provider : String) : ImportOutcome :=
  let lookup := buildLookup resolvePath st.docs
  let r := runSources st lookup sources provider 0 0
  { store := r.1, ok := true,
    message := "Preprocessed " ++ toString r.2.1 ++ " files, updated " ++ toString r.2.2 ++ " files",
    total := st.docs.length + r.2.1, added := r.2.1, updated := r.2.2 }

/-! ### Invariants of the synchronizer (used to state and prove C1) -/

/-- A source as both backends enumerate them: its `sourcePath` is already
canonical (`path.resolve` is idempotent and `s3://` URIs are fixed points of
`resolveExistingPathKey`) and non-empty. -/
def GoodSource (resolvePath : String → String) (s : Source) : Prop :=
  resolveExistingPathKey resolvePath s.sourcePath = s.sourcePath ∧ s.sourcePath ≠ ""

/-- Well-formedness the record backend guarantees: distinct ids, all below
the next fresh id. -/
def StoreWf (st : Store) : Prop :=
  st.docs.Pairwise (fun a b => a.id ≠ b.id) ∧ ∀ d ∈ st.docs, d.id < st.nextId

/-- At most one Document per canonicalized path. -/
def UniquePaths (resolvePath : String → String) (st : Store) : Prop :=
  st.docs.Pairwise (fun a b =>
    resolveExistingPathKey resolvePath a.path ≠ resolveExistingPathKey resolvePath b.path)

/-- Some Document in the store has the given canonicalized path. -/
def PathPresent (resolvePath : String → String) (st : Store) (k : String) : Prop :=
  ∃ d ∈ st.docs, resolveExistingPathKey resolvePath d.path = k

/-- The in-run lookup is faithful to the store: every binding maps a
non-empty canonical key to a stored Document with that key, and every
stored Document with a non-empty canonical key is bound. -/
def LookupInv (resolvePath : String → String) (st : Store)
    (lookup : List (String × Doc)) : Prop :=
  (∀ e ∈ lookup, e.1 ≠ "" ∧ resolveExistingPathKey resolvePath e.2.path = e.1 ∧
    e.2 ∈ st.docs) ∧
  (∀ d ∈ st.docs, resolveExistingPathKey resolvePath d.path ≠ "" →
    (assocFind lookup (resolveExistingPathKey resolvePath d.path)).isSome = true)

/-- The running invariant of one synchronizer pass. -/
def SyncInv (resolvePath : String → String) (st : Store)
    (lookup : List (String × Doc)) : Prop :=
  StoreWf st ∧ UniquePaths resolvePath st ∧ LookupInv resolvePath st lookup

/-- A source that the upsert actually writes: its load does not throw, its
snippet is non-empty, and its store write succeeds. -/
def NonSkipped (s : Source) : Prop :=
  s.loadThrows = false ∧ jsTrim (buildSnippet s.topic s.text s.filename s.ext) ≠ "" ∧
  s.writeFails = false

/-- A concrete empty store (for exercising the import theorems). -/
def c1Store : Store := { docs := [], nextId := 0 }

/-- A concrete enumerated source with a canonical local path. -/
def c1Source : Source :=
  { sourcePath := "/docs/forensics/a.txt", filename := "a.txt",
    topic := some "forensics", ext := ".txt", text := "hello world",
    loadThrows := false, embedResult := none, writeFails := false }

/-! ## Provider configuration (`setConfiguredProvider`) -/

/-- One persisted `AppConfig` record. -/
structure AppConfigRec where
  id : Nat
  key : String
  provider : String
deriving DecidableEq, Repr

/-- The persisted `AppConfig` collection. -/
structure ConfigStore where
  configs : List AppConfigRec
  nextId : Nat
deriving DecidableEq, Repr

/-- Result shape `{ok, message, total}`. -/
structure RpcResult where
  ok : Bool
  message : String
  total : Nat
deriving DecidableEq, Repr

/-- The fixed allow-list `ALLOWED_PROVIDERS`. -/
def ALLOWED_PROVIDERS : List String := ["openai", "google", "bedrock"]

/-- `setConfiguredProvider(provider)`: reject unknown providers before any
store access, then update the existing `global` record or create it.
`listFails`, `updateFails`, `createFails` are the store failure oracles. -/
def setConfiguredProvider (cfg : ConfigStore) (listFails updateFails createFails : Bool)
    (provider : String) : ConfigStore × RpcResult :=
  if provider ∉ ALLOWED_PROVIDERS then
    (cfg, { ok := false, message := "Invalid provider: " ++ provider, total := 0 })
  else if listFails then
    (cfg, { ok := false, message := "Failed to load config", total := 0 })
  else
    match (cfg.configs.filter (fun c => c.key = "global")).head? with
    | some existing =>
      if updateFails then
        (cfg, { ok := false, message := "Failed to update provider", total := 0 })
      else
        ({ cfg with configs := cfg.configs.map (fun c =>
            if c.id = existing.id then { c with key := "global", provider := provider } else c) },
         { ok := true, message := "Provider set to " ++ provider, total := 1 })
    | none =>
      if createFails then
        (cfg, { ok := false, message := "Failed to save provider", total := 0 })
      else
        ({ configs := cfg.configs ++ [{ id := cfg.nextId, key := "global", provider := provider }],
           nextId := cfg.nextId + 1 },
         { ok := true, message := "Provider set to " ++ provider, total := 1 })

/-! ## Retriever (`retrieveContext` in `src/amplify/functions/chat/handler.ts`)

`scoredDocs` records exactly the Documents whose embeddings were compared
against the query embedding by `cosine`, and `embedCalls` how many times the
embedding backend was invoked. -/

/-- Trace of one `retrieveContext` invocation. -/
structure RetrieveTrace where
  results : List String
  scoredDocs : List Doc
  embedCalls : Nat

/-- JS truthiness of the `topic` argument: present and non-empty. -/
def topicTruthy : Option String → Bool
  | some t => t ≠ ""
  | none => false

/-- Candidate loading: all Documents, or exact-topic matches when a
non-empty topic is given. -/
def candidatesFor (allDocs : List Doc) (topic : Option String) : List Doc :=
  if topicTruthy topic then allDocs.filter (fun d => d.topic = topic)
  else allDocs

/-- `candidates.filter(d => d.embedding && d.embedding_provider === provider)`. -/
def embCandidates (candidates : List Doc) (provider : String) : List Doc :=
  candidates.filter (fun d => d.embedding ≠ "" ∧ d.embedding_provider = some provider)

/-- Insert `x` into a descending-sorted list, before the first element that
does not outrank it (so equal scores keep the existing element first). -/
def insertDescBy {α : Type} (le : α → α → Bool) (x : α) : List α → List α
  | [] => [x]
  | y :: ys => if le y x then x :: y :: ys else y :: insertDescBy le x ys

/-- Stable descending sort, the behaviour of JS `sort((a,b) => b.score -
a.score)`. -/
def sortDescBy {α : Type} (le : α → α → Bool) : List α → List α
  | [] => []
  | x :: xs => insertDescBy le x (sortDescBy le xs)

/-- `(query || '').toLowerCase().split(/\W+/).filter(Boolean)`. -/
def queryTokens (query : String) : List String :=
  ((splitChars (fun c => !isWordChar c) (jsToLower query).data).map
    (fun cs => (⟨cs⟩ : String))).filter (fun t => t ≠ "")

/-- The keyword scorer: each candidate paired with how many query tokens its
lowercased text contains. -/
def fallbackScored (candidates : List Doc) (query : String) : List (Doc × Nat) :=
  let q := queryTokens query
  candidates.map (fun d => (d, (q.filter (fun tok => strContains (jsToLower d.text) tok)).length))

/-- The keyword fallback: score, sort descending (stable), return the top-k
texts. -/
def fallbackRanking (candidates : List Doc) (query : String) (k : Nat) : List String :=
  ((sortDescBy (fun a b => a.2 ≤ b.2) (fallbackScored candidates query)).take k).map
    (fun s => s.1.text)

/-- The trace of the keyword fallback path: no cosine comparisons, no
embedding calls. -/
def fallbackTrace (candidates : List Doc) (query : String) (k : Nat) : RetrieveTrace :=
  { results := fallbackRanking candidates query k, scoredDocs := [], embedCalls := 0 }

/-- `retrieveContext(topic, query, k, provider)`: load candidates, try the
embedding path (non-empty query, provider-matching embedded candidates,
successful query embedding), otherwise fall back to keyword overlap. -/
noncomputable def retrieveContext (computeEmb : String → String → Option (List ℝ))
    (parseEmb : String → List ℝ) (allDocs : List Doc) (topic : Option String)
    (query : String) (k : Nat) (provider : String) : RetrieveTrace :=
  let candidates := candidatesFor allDocs topic
  if query ≠ "" then
    let embc := embCandidates candidates provider
    if 0 < embc.length then
      match computeEmb provider (jsSlice query 1000) with
      | some qEmb =>
        let scored := embc.map (fun d => (d, cosine (some qEmb) (some (parseEmb d.embedding))))
        { results := ((sortDescBy (fun a b => decide (a.2 ≤ b.2)) scored).take k).map
            (fun c => c.1.text),
          scoredDocs := embc, embedCalls := 1 }
      | none =>
        { results := fallbackRanking candidates query k, scoredDocs := [], embedCalls := 1 }
    else fallbackTrace candidates query k
  else fallbackTrace candidates query k

end Scioly

namespace Scioly

/-! ## Theorems -/

/-! ### Substring helper lemmas -/

theorem listContains_iff_isInfixList (s t : List Char) : listContains s t = true ↔ t <:+: s := by
  constructor
  · intro h
    rw [listContains, List.any_eq_true] at h
    obtain ⟨suf, hsuf, hpre⟩ := h
    rw [List.mem_tails] at hsuf
    exact (List.isPrefixOf_iff_prefix.mp hpre).isInfix.trans hsuf.isInfix
  · intro h
    obtain ⟨pre, suf, hps⟩ := h
    rw [listContains, List.any_eq_true]
    refine ⟨t ++ suf, ?_, ?_⟩
    · rw [List.mem_tails]
      exact ⟨pre, by rw [← hps, List.append_assoc]⟩
    · exact List.isPrefixOf_iff_prefix.mpr ⟨suf, rfl⟩

theorem listContains_append_right (a b t : List Char) (h : listContains b t = true) :
    listContains (a ++ b) t = true := by
  rw [listContains_iff_isInfixList] at h ⊢
  exact h.trans (List.suffix_append a b).isInfix

theorem listContains_refl (t : List Char) : listContains t t = true := by
  rw [listContains_iff_isInfixList]

theorem listContains_subset (s t : List Char) (h : listContains s t = true) :
    ∀ c ∈ t, c ∈ s := by
  rw [listContains_iff_isInfixList] at h
  exact fun c hc => h.subset hc

theorem strContains_append_right (a b t : String) (h : strContains b t = true) :
    strContains (a ++ b) t = true := by
  rw [strContains, String.data_append]
  exact listContains_append_right a.data b.data t.data h

/-! ### C8: team-label rule -/

/-- C8 counterexample.  The claim says a trimmed team starting with the word
"Team" is concatenated as-is, but the code requires whitespace after `team`:
for the team string `"Team"` the code emits `"Lincoln HS Team Team"`, not
the concatenation `"Lincoln HS Team"`. -/
theorem normalizeSchoolTeamLabel_bare_team_cex :
    normalizeSchoolTeamLabel "Lincoln HS" "Team" = "Lincoln HS Team Team" ∧
    normalizeSchoolTeamLabel "Lincoln HS" "Team" ≠ "Lincoln HS" ++ " " ++ "Team" := by
  constructor
  · decide
  · decide

/-- C8 (amended): for a school that trims non-empty, an empty-trimming team
yields `"<school> Team Unspecified"`; a trimmed team starting with `team`
(case-insensitive) followed by a whitespace character is concatenated as-is;
any other team (including the bare word `"Team"`) is prefixed with
`"Team "`.  The three examples of the claim hold as stated. -/
theorem normalizeSchoolTeamLabel_spec (school team : String)
    (hs : jsTrim school ≠ "") :
    (jsTrim team = "" →
      normalizeSchoolTeamLabel school team = jsTrim school ++ " Team Unspecified") ∧
    (jsTrim team ≠ "" → startsWithTeamWs (jsTrim team).data = true →
      normalizeSchoolTeamLabel school team = jsTrim school ++ " " ++ jsTrim team) ∧
    (jsTrim team ≠ "" → startsWithTeamWs (jsTrim team).data = false →
      normalizeSchoolTeamLabel school team = jsTrim school ++ " Team " ++ jsTrim team) ∧
    normalizeSchoolTeamLabel "Lincoln HS" "" = "Lincoln HS Team Unspecified" ∧
    normalizeSchoolTeamLabel "Lincoln HS" "Team B" = "Lincoln HS Team B" ∧
    normalizeSchoolTeamLabel "Lincoln HS" "B" = "Lincoln HS Team B" := by
  refine ⟨?_, ?_, ?_, by decide, by decide, by decide⟩
  · intro ht
    simp [normalizeSchoolTeamLabel, hs, ht]
  · intro ht hws
    simp [normalizeSchoolTeamLabel, hs, ht, hws]
  · intro ht hws
    simp [normalizeSchoolTeamLabel, hs, ht, hws]

/-- C8 witness: the amended characterization applied at
`("Lincoln HS", "B")`. -/
theorem normalizeSchoolTeamLabel_spec_witness :
    normalizeSchoolTeamLabel "Lincoln HS" "B" = jsTrim "Lincoln HS" ++ " Team " ++ jsTrim "B" :=
  (normalizeSchoolTeamLabel_spec "Lincoln HS" "B" (by decide)).2.2.1 (by decide) (by decide)

/-! ### C9: invalid provider rejection -/

/-- C9: for a provider outside the allow-list, `setConfiguredProvider`
returns `ok = false` with a message naming the provider, and the stored
configuration is completely unchanged, whatever the store failure oracles
do. -/
theorem setConfiguredProvider_invalid (cfg : ConfigStore) (lf uf cf : Bool)
    (provider : String) (h : provider ∉ ALLOWED_PROVIDERS) :
    (setConfiguredProvider cfg lf uf cf provider).1 = cfg ∧
    (setConfiguredProvider cfg lf uf cf provider).2 =
      { ok := false, message := "Invalid provider: " ++ provider, total := 0 } ∧
    strContains ("Invalid provider: " ++ provider) provider = true := by
  refine ⟨?_, ?_, ?_⟩
  · simp [setConfiguredProvider, h]
  · simp [setConfiguredProvider, h]
  · exact strContains_append_right _ _ _ (listContains_refl provider.data)

/-- C9 witness: the rejection applied at the concrete provider `"azure"`
over a one-record configuration store. -/
theorem setConfiguredProvider_invalid_witness :
    (setConfiguredProvider ⟨[⟨0, "global", "openai"⟩], 1⟩ false false false "azure").1 =
      ⟨[⟨0, "global", "openai"⟩], 1⟩ ∧
    (setConfiguredProvider ⟨[⟨0, "global", "openai"⟩], 1⟩ false false false "azure").2 =
      { ok := false, message := "Invalid provider: " ++ "azure", total := 0 } := by
  have h := setConfiguredProvider_invalid ⟨[⟨0, "global", "openai"⟩], 1⟩ false false false
    "azure" (by decide)
  exact ⟨h.1, h.2.1⟩

/-! ### C5: cosine bounds -/

theorem dotList_self_nonneg (xs : List ℝ) : 0 ≤ dotList xs xs := by
  induction xs with
  | nil => simp [dotList]
  | cons x rest ih => rw [dotList]; nlinarith [sq_nonneg x]

theorem dotList_nil_left (ys : List ℝ) : dotList [] ys = 0 := by
  cases ys <;> rfl

theorem dotList_nil_right (xs : List ℝ) : dotList xs [] = 0 := by
  cases xs <;> rfl

/-- Discrete Cauchy–Schwarz for the list dot product. -/
theorem dotList_sq_le (xs : List ℝ) : ∀ ys : List ℝ,
    (dotList xs ys) ^ 2 ≤ dotList xs xs * dotList ys ys := by
  induction xs with
  | nil => intro ys; simp [dotList_nil_left, dotList]
  | cons x rest ih =>
    intro ys
    cases ys with
    | nil => simp [dotList_nil_right, dotList]
    | cons y rest2 =>
      have hA := dotList_self_nonneg rest
      have hB := dotList_self_nonneg rest2
      have hd := ih rest2
      rw [dotList, dotList, dotList]
      set A := dotList rest rest with hAdef
      set B := dotList rest2 rest2 with hBdef
      set d := dotList rest rest2 with hddef
      have hPQ : 0 ≤ (x ^ 2 * B + y ^ 2 * A - 2 * x * y * d) *
          (x ^ 2 * B + y ^ 2 * A + 2 * x * y * d) := by
        nlinarith [sq_nonneg (x ^ 2 * B - y ^ 2 * A),
          mul_nonneg (sq_nonneg (x * y)) (sub_nonneg.mpr hd)]
      have hsum : 0 ≤ (x ^ 2 * B + y ^ 2 * A - 2 * x * y * d) +
          (x ^ 2 * B + y ^ 2 * A + 2 * x * y * d) := by
        nlinarith [mul_nonneg (sq_nonneg x) hB, mul_nonneg (sq_nonneg y) hA]
      have hP : 0 ≤ x ^ 2 * B + y ^ 2 * A - 2 * x * y * d := by
        nlinarith [hPQ, hsum]
      nlinarith [hd, hP]

/-- The denominator's positive epsilon `1e-12`. -/
theorem cosine_eps_pos : (0 : ℝ) < 1 / (10 : ℝ) ^ 12 := by positivity

/-- C5: for equal-length non-zero vectors the similarity lies in `[-1, 1]`
(the epsilon keeps the denominator positive), and any missing or
length-mismatched input yields exactly `-1`. -/
theorem cosine_spec (xs ys : List ℝ) (hlen : xs.length = ys.length)
    (hx : ∃ v ∈ xs, v ≠ 0) (hy : ∃ v ∈ ys, v ≠ 0) :
    (-1 ≤ cosine (some xs) (some ys) ∧ cosine (some xs) (some ys) ≤ 1) ∧
    (∀ a b : Option (List ℝ),
      (a = none ∨ b = none ∨
        (∃ xs' ys', a = some xs' ∧ b = some ys' ∧ xs'.length ≠ ys'.length)) →
      cosine a b = -1) := by
  constructor
  · have hA := dotList_self_nonneg xs
    have hB := dotList_self_nonneg ys
    have hsq := dotList_sq_le xs ys
    have hden : (0 : ℝ) < Real.sqrt (dotList xs xs) * Real.sqrt (dotList ys ys) +
        1 / (10 : ℝ) ^ 12 := by
      have := Real.sqrt_nonneg (dotList xs xs)
      have := Real.sqrt_nonneg (dotList ys ys)
      nlinarith [cosine_eps_pos]
    have habs : |dotList xs ys| ≤ Real.sqrt (dotList xs xs) * Real.sqrt (dotList ys ys) := by
      rw [← Real.sqrt_sq_eq_abs, ← Real.sqrt_mul hA]
      exact Real.sqrt_le_sqrt hsq
    have hq : |dotList xs ys /
        (Real.sqrt (dotList xs xs) * Real.sqrt (dotList ys ys) + 1 / (10 : ℝ) ^ 12)| ≤ 1 := by
      rw [abs_div, abs_of_pos hden]
      apply div_le_one_of_le₀
      · linarith [habs, cosine_eps_pos]
      · exact hden.le
    have hb := abs_le.mp hq
    rw [cosine, if_pos hlen]
    exact hb
  · intro a b hab
    rcases hab with h | h | ⟨xs', ys', ha, hb, hne⟩
    · subst h; rfl
    · subst h; cases a <;> rfl
    · subst ha; subst hb
      rw [cosine, if_neg hne]

/-- C5 witness: the bound theorem applied at the concrete vectors `[1]` and
`[1]`, together with its mismatch clause at `[1]` versus `[1, 2]`. -/
theorem cosine_spec_witness :
    (-1 ≤ cosine (some [(1 : ℝ)]) (some [(1 : ℝ)]) ∧
      cosine (some [(1 : ℝ)]) (some [(1 : ℝ)]) ≤ 1) ∧
    cosine (some [(1 : ℝ)]) (some [(1 : ℝ), 2]) = -1 := by
  have h := cosine_spec [(1 : ℝ)] [(1 : ℝ)] rfl
    ⟨1, by simp, one_ne_zero⟩ ⟨1, by simp, one_ne_zero⟩
  exact ⟨h.1, h.2 (some [(1 : ℝ)]) (some [(1 : ℝ), 2])
    (Or.inr (Or.inr ⟨[(1 : ℝ)], [(1 : ℝ), 2], rfl, rfl, by simp⟩))⟩

/-! ### C6: empty-snippet skip -/

/-- C6: a source whose built snippet trims to empty is skipped: the upsert
returns `skipped` with the store and the in-run lookup unchanged, and the
surrounding loop leaves both counters untouched. -/
theorem upsert_empty_snippet_skipped (st : Store) (lookup : List (String × Doc))
    (s : Source) (provider : String) (rest : List Source) (a u : Nat)
    (hload : s.loadThrows = false)
    (hempty : jsTrim (buildSnippet s.topic s.text s.filename s.ext) = "") :
    upsertDocument st lookup s provider = Except.ok (st, lookup, UpsertResult.skipped) ∧
    runSources st lookup (s :: rest) provider a u = runSources st lookup rest provider a u := by
  have h1 : upsertDocument st lookup s provider =
      Except.ok (st, lookup, UpsertResult.skipped) := by
    simp [upsertDocument, hload, hempty]
  refine ⟨h1, ?_⟩
  rw [runSources, h1]

/-- C6 witness: the skip applied to a concrete source with empty extracted
text over a one-document store. -/
theorem upsert_empty_snippet_skipped_witness :
    upsertDocument ⟨[⟨0, "f", "/p", none, "t", "", none⟩], 1⟩ []
      ⟨"/q", "g.txt", none, ".txt", "  ", false, none, false⟩ "openai" =
      Except.ok (⟨[⟨0, "f", "/p", none, "t", "", none⟩], 1⟩, [], UpsertResult.skipped) :=
  (upsert_empty_snippet_skipped ⟨[⟨0, "f", "/p", none, "t", "", none⟩], 1⟩ []
    ⟨"/q", "g.txt", none, ".txt", "  ", false, none, false⟩ "openai" [] 0 0
    rfl (by decide)).1

/-! ### C4: extraction failure boundary -/

/-- C4 counterexample.  The claim says no exception escapes the extraction
boundary for any buffer and hint, but the source wraps only the Word branch
in try/catch: a PDF hint whose parse throws (corrupt PDF content)
propagates the exception to the caller. -/
theorem extractTextFromBuffer_pdf_throw_cex :
    extractTextFromBuffer (fun _ => Except.error ()) (fun _ => Except.ok "")
      (fun _ => "") [37, 80, 68, 70] ".pdf" = Except.error () := by
  rfl

/-- C4 (amended): extraction returns without throwing for every non-PDF
hint — Word parse failures yield the empty string and all other hints decode
as UTF-8 — and for a PDF hint whenever the PDF parser itself returns; only a
PDF-parser exception escapes to the caller. -/
theorem extractTextFromBuffer_noThrow (pdfP mamR : List Nat → Except Unit String)
    (utf8 : List Nat → String) (buf : List Nat) (ext : String) :
    (jsToLower ext ≠ ".pdf" →
      ∃ t, extractTextFromBuffer pdfP mamR utf8 buf ext = Except.ok t) ∧
    (∀ t, pdfP buf = Except.ok t →
      ∃ u, extractTextFromBuffer pdfP mamR utf8 buf ext = Except.ok u) ∧
    ((jsToLower ext = ".docx" ∨ jsToLower ext = ".doc") →
      ∀ e, mamR buf = Except.error e →
        extractTextFromBuffer pdfP mamR utf8 buf ext = Except.ok "") := by
    refine ⟨?_, ?_, ?_⟩
    · intro hne
      rw [extractTextFromBuffer]
      rw [if_neg hne]
      by_cases hdoc : jsToLower ext = ".docx" ∨ jsToLower ext = ".doc"
      · rw [if_pos hdoc]
        cases hm : mamR buf with
        | ok t => exact ⟨sanitizeText t, rfl⟩
        | error e => exact ⟨"", rfl⟩
      · rw [if_neg hdoc]
        exact ⟨_, rfl⟩
    · intro t ht
      rw [extractTextFromBuffer]
      by_cases hpdf : jsToLower ext = ".pdf"
      · rw [if_pos hpdf, ht]
        exact ⟨sanitizeText t, rfl⟩
      · rw [if_neg hpdf]
        by_cases hdoc : jsToLower ext = ".docx" ∨ jsToLower ext = ".doc"
        · rw [if_pos hdoc]
          cases hm : mamR buf with
          | ok u => exact ⟨sanitizeText u, rfl⟩
          | error e => exact ⟨"", rfl⟩
        · rw [if_neg hdoc]
          exact ⟨_, rfl⟩
    · intro hdoc e hm
      have hne : jsToLower ext ≠ ".pdf" := by
        rcases hdoc with h | h <;> rw [h] <;> decide
      rw [extractTextFromBuffer, if_neg hne, if_pos hdoc, hm]

/-- C4 witness: the amended no-throw guarantee applied to a concrete
non-PDF buffer and to a Word buffer whose parser fails. -/
theorem extractTextFromBuffer_noThrow_witness :
    (∃ t, extractTextFromBuffer (fun _ => Except.error ()) (fun _ => Except.error ())
      (fun _ => "hello") [104] ".txt" = Except.ok t) ∧
    extractTextFromBuffer (fun _ => Except.error ()) (fun _ => Except.error ())
      (fun _ => "hello") [104] ".docx" = Except.ok "" := by
  constructor
  · exact (extractTextFromBuffer_noThrow (fun _ => Except.error ())
      (fun _ => Except.error ()) (fun _ => "hello") [104] ".txt").1 (by decide)
  · exact (extractTextFromBuffer_noThrow (fun _ => Except.error ())
      (fun _ => Except.error ()) (fun _ => "hello") [104] ".docx").2.2
      (Or.inl (by decide)) () rfl

/-! ### C10: slug round-trip -/

theorem lowerAlnum_toNat (c : Char) (h : isLowerAlnum c = true) :
    (97 ≤ c.toNat ∧ c.toNat ≤ 122) ∨ (48 ≤ c.toNat ∧ c.toNat ≤ 57) := by
  rw [isLowerAlnum] at h
  simp only [Bool.or_eq_true, Bool.and_eq_true, decide_eq_true_eq, Char.le_def] at h
  rcases h with ⟨h1, h2⟩ | ⟨h1, h2⟩ <;>
    [left; right] <;>
    (rw [UInt32.le_def] at h1 h2 ;
     rw [BitVec.le_def] at h1 h2 ;
     simp only [show ('a').val.toBitVec.toNat = 97 from rfl,
       show ('z').val.toBitVec.toNat = 122 from rfl,
       show ('0').val.toBitVec.toNat = 48 from rfl,
       show ('9').val.toBitVec.toNat = 57 from rfl] at h1 h2 ;
     simp only [Char.toNat, UInt32.toNat] ; omega)

theorem toLower_of_lowerAlnum (c : Char) (h : isLowerAlnum c = true) :
    c.toLower = c := by
  have hb := lowerAlnum_toNat c h
  rw [Char.toLower]
  have hn : ¬(c.toNat ≥ 65 ∧ c.toNat ≤ 90) := by omega
  rw [if_neg hn]

theorem lowerAlnum_ne_underscore (c : Char) (h : isLowerAlnum c = true) :
    c ≠ '_' := by
  intro hc
  subst hc
  exact absurd h (by decide)

theorem lowerAlnum_not_jsWs (c : Char) (h : isLowerAlnum c = true) :
    isJsWs c = false := by
  have hb := lowerAlnum_toNat c h
  cases hws : isJsWs c
  · rfl
  · exfalso
    rw [isJsWs] at hws
    simp only [Bool.or_eq_true, Bool.and_eq_true, decide_eq_true_eq] at hws
    omega

theorem joinWith_nil (sep : List Char) : joinWith sep [] = [] := rfl

theorem joinWith_single (sep w : List Char) : joinWith sep [w] = w := rfl

theorem joinWith_cons_cons (sep w w2 : List Char) (rest2 : List (List Char)) :
    joinWith sep (w :: w2 :: rest2) = w ++ sep ++ joinWith sep (w2 :: rest2) := rfl

theorem joinWith_cons (sep : List Char) (w : List Char) (l : List (List Char)) :
    ∃ t, joinWith sep (w :: l) = w ++ t := by
  cases l with
  | nil => exact ⟨[], by simp [joinWith_single]⟩
  | cons w2 rest =>
    exact ⟨sep ++ joinWith sep (w2 :: rest), by
      rw [joinWith_cons_cons, List.append_assoc]⟩

theorem mem_joinWith (sep : List Char) (ws : List (List Char)) (c : Char)
    (hc : c ∈ joinWith sep ws) : (∃ w ∈ ws, c ∈ w) ∨ c ∈ sep := by
  induction ws with
  | nil => simp [joinWith_nil] at hc
  | cons w rest ih =>
    cases rest with
    | nil =>
      rw [joinWith_single] at hc
      exact Or.inl ⟨w, by simp, hc⟩
    | cons w2 rest2 =>
      rw [joinWith_cons_cons] at hc
      simp only [List.append_assoc, List.mem_append] at hc
      rcases hc with hw | hsep | hrest
      · exact Or.inl ⟨w, by simp, hw⟩
      · exact Or.inr hsep
      · rcases ih hrest with ⟨w', hw', hcw'⟩ | hs
        · exact Or.inl ⟨w', List.mem_cons_of_mem _ hw', hcw'⟩
        · exact Or.inr hs

theorem runsUnderscore_nil : nonAlnumRunsToUnderscore [] = [] := by
  simp [nonAlnumRunsToUnderscore]

theorem runsUnderscore_word (w rest : List Char)
    (hw : ∀ c ∈ w, isLowerAlnum c = true) :
    nonAlnumRunsToUnderscore (w ++ rest) = w ++ nonAlnumRunsToUnderscore rest := by
  induction w with
  | nil => simp
  | cons c w' ih =>
    have hc := hw c (by simp)
    rw [List.cons_append, nonAlnumRunsToUnderscore, if_pos hc,
      ih (fun d hd => hw d (by simp [hd])), List.cons_append]

theorem runsUnderscore_space (c : Char) (t : List Char) (hc : isLowerAlnum c = true) :
    nonAlnumRunsToUnderscore (' ' :: c :: t) =
      '_' :: nonAlnumRunsToUnderscore (c :: t) := by
  rw [nonAlnumRunsToUnderscore]
  have hsp : isLowerAlnum ' ' = false := by decide
  rw [if_neg (by simp [hsp])]
  rw [List.dropWhile_cons_of_neg (by simp [hc])]

theorem slug_core (ws : List (List Char))
    (hws : ∀ w ∈ ws, w ≠ [] ∧ ∀ c ∈ w, isLowerAlnum c = true) :
    nonAlnumRunsToUnderscore (joinWith [' '] ws) = joinWith ['_'] ws := by
  induction ws with
  | nil => rw [joinWith_nil, joinWith_nil, runsUnderscore_nil]
  | cons w rest ih =>
    have hw := hws w (by simp)
    cases rest with
    | nil =>
      rw [joinWith_single, joinWith_single]
      have h := runsUnderscore_word w [] hw.2
      rw [List.append_nil] at h
      rw [h, runsUnderscore_nil, List.append_nil]
    | cons w2 rest2 =>
      have hw2 := hws w2 (by simp)
      obtain ⟨t, ht⟩ := joinWith_cons [' '] w2 rest2
      obtain ⟨c2, w2', hc2⟩ : ∃ c2 w2', w2 = c2 :: w2' := by
        cases w2 with
        | nil => exact absurd rfl hw2.1
        | cons a b => exact ⟨a, b, rfl⟩
      have hJ : joinWith [' '] (w2 :: rest2) = c2 :: (w2' ++ t) := by
        rw [ht, hc2, List.cons_append]
      calc nonAlnumRunsToUnderscore (joinWith [' '] (w :: w2 :: rest2))
          = nonAlnumRunsToUnderscore (w ++ (' ' :: joinWith [' '] (w2 :: rest2))) := by
            rw [joinWith_cons_cons, List.append_assoc, List.singleton_append]
        _ = w ++ nonAlnumRunsToUnderscore (' ' :: joinWith [' '] (w2 :: rest2)) :=
            runsUnderscore_word w _ hw.2
        _ = w ++ ('_' :: nonAlnumRunsToUnderscore (joinWith [' '] (w2 :: rest2))) := by
            rw [hJ, runsUnderscore_space c2 (w2' ++ t) (hw2.2 c2 (by simp [hc2]))]
        _ = w ++ ('_' :: joinWith ['_'] (w2 :: rest2)) := by
            rw [ih (fun u hu => hws u (by simp [hu]))]
        _ = joinWith ['_'] (w :: w2 :: rest2) := by
            rw [joinWith_cons_cons, List.append_assoc, List.singleton_append]

theorem dropOneLeadUnderscore_id (l : List Char)
    (h : ∀ c, l.head? = some c → c ≠ '_') : dropOneLeadUnderscore l = l := by
  cases l with
  | nil => rfl
  | cons c t =>
    rw [dropOneLeadUnderscore, if_neg (h c rfl)]

theorem stripEdgeUnderscores_id (cs : List Char)
    (hhead : ∀ c, cs.head? = some c → c ≠ '_')
    (hlast : ∀ c, cs.getLast? = some c → c ≠ '_') :
    stripEdgeUnderscores cs = cs := by
  rw [stripEdgeUnderscores, dropOneLeadUnderscore_id cs hhead,
    dropOneLeadUnderscore_id cs.reverse
      (fun c hc => hlast c (by rw [← List.head?_reverse, hc])),
    List.reverse_reverse]

theorem mapUnderscoreSpace_word (w : List Char)
    (hw : ∀ c ∈ w, isLowerAlnum c = true) :
    w.map (fun c => if c = '_' then ' ' else c) = w := by
  induction w with
  | nil => rfl
  | cons c t ih =>
    rw [List.map_cons, if_neg (lowerAlnum_ne_underscore c (hw c (by simp))),
      ih (fun d hd => hw d (by simp [hd]))]

theorem mapUnderscoreSpace_join (ws : List (List Char))
    (hws : ∀ w ∈ ws, w ≠ [] ∧ ∀ c ∈ w, isLowerAlnum c = true) :
    (joinWith ['_'] ws).map (fun c => if c = '_' then ' ' else c) =
      joinWith [' '] ws := by
  induction ws with
  | nil => rfl
  | cons w rest ih =>
    cases rest with
    | nil =>
      rw [joinWith_single, joinWith_single]
      exact mapUnderscoreSpace_word w (hws w (by simp)).2
    | cons w2 rest2 =>
      rw [joinWith_cons_cons, joinWith_cons_cons]
      simp only [List.map_append]
      rw [mapUnderscoreSpace_word w (hws w (by simp)).2]
      rw [ih (fun u hu => hws u (by simp [hu]))]
      rfl

theorem joinWith_ne_nil (sep : List Char) (ws : List (List Char)) (hne : ws ≠ [])
    (hws : ∀ w ∈ ws, w ≠ []) : joinWith sep ws ≠ [] := by
  cases ws with
  | nil => exact absurd rfl hne
  | cons w rest =>
    obtain ⟨t, ht⟩ := joinWith_cons sep w rest
    rw [ht]
    have := hws w (by simp)
    intro hnil
    rw [List.append_eq_nil] at hnil
    exact this hnil.1

theorem joinWith_head (sep : List Char) (w : List Char) (l : List (List Char))
    (hw : w ≠ []) : (joinWith sep (w :: l)).head? = w.head? := by
  obtain ⟨t, ht⟩ := joinWith_cons sep w l
  rw [ht]
  cases w with
  | nil => exact absurd rfl hw
  | cons c w' => rfl

theorem joinWith_getLast (sep : List Char) (ws : List (List Char)) (hne : ws ≠ [])
    (hws : ∀ w ∈ ws, w ≠ []) :
    ∃ w ∈ ws, (joinWith sep ws).getLast? = w.getLast? := by
  induction ws with
  | nil => exact absurd rfl hne
  | cons w rest ih =>
    cases rest with
    | nil => exact ⟨w, by simp, by rw [joinWith]⟩
    | cons w2 rest2 =>
      obtain ⟨u, hu, hlast⟩ := ih (by simp) (fun v hv => hws v (by simp [hv]))
      refine ⟨u, by simp [hu], ?_⟩
      have hj : joinWith sep (w2 :: rest2) ≠ [] :=
        joinWith_ne_nil sep (w2 :: rest2) (by simp) (fun v hv => hws v (by simp [hv]))
      rw [joinWith_cons_cons, List.append_assoc,
        List.getLast?_append_of_ne_nil w
          (show sep ++ joinWith sep (w2 :: rest2) ≠ [] from by simp [hj]),
        List.getLast?_append_of_ne_nil sep hj, hlast]

theorem trimChars_id (cs : List Char)
    (hhead : ∀ c, cs.head? = some c → isJsWs c = false)
    (hlast : ∀ c, cs.getLast? = some c → isJsWs c = false) :
    trimChars cs = cs := by
  rw [trimChars]
  have h1 : cs.dropWhile isJsWs = cs := by
    cases cs with
    | nil => rfl
    | cons c t => exact List.dropWhile_cons_of_neg (by simp [hhead c rfl])
  rw [h1]
  have h2 : cs.reverse.dropWhile isJsWs = cs.reverse := by
    cases hrev : cs.reverse with
    | nil => rfl
    | cons c t =>
      have : cs.getLast? = some c := by rw [← List.head?_reverse, hrev]; rfl
      exact List.dropWhile_cons_of_neg (by simp [hlast c this])
  rw [h2, List.reverse_reverse]

/-- C10: a topic made of one or more non-empty lowercase-alphanumeric words
separated by single spaces round-trips: `topicToSlug` yields the words
joined by underscores, and `slugToTopic` recovers the original label. -/
theorem slug_roundtrip (ws : List (List Char)) (hne : ws ≠ [])
    (hws : ∀ w ∈ ws, w ≠ [] ∧ ∀ c ∈ w, isLowerAlnum c = true) :
    topicToSlug ⟨joinWith [' '] ws⟩ = ⟨joinWith ['_'] ws⟩ ∧
    slugToTopic (topicToSlug ⟨joinWith [' '] ws⟩) = ⟨joinWith [' '] ws⟩ := by
  have hchars : ∀ c ∈ joinWith [' '] ws, isLowerAlnum c = true ∨ c = ' ' := by
    intro c hc
    rcases mem_joinWith [' '] ws c hc with ⟨w, hw, hcw⟩ | hs
    · exact Or.inl ((hws w hw).2 c hcw)
    · simp at hs
      exact Or.inr hs
  have hlower : (jsToLower ⟨joinWith [' '] ws⟩) = ⟨joinWith [' '] ws⟩ := by
    rw [jsToLower]
    congr 1
    show (joinWith [' '] ws).map Char.toLower = joinWith [' '] ws
    rw [List.map_congr_left, List.map_id]
    intro c hc
    rcases hchars c hc with h | h
    · exact toLower_of_lowerAlnum c h
    · rw [h]; rfl
  obtain ⟨w1, ws', hws1⟩ : ∃ w1 ws', ws = w1 :: ws' := by
    cases ws with
    | nil => exact absurd rfl hne
    | cons a b => exact ⟨a, b, rfl⟩
  have hslug : topicToSlug ⟨joinWith [' '] ws⟩ = ⟨joinWith ['_'] ws⟩ := by
    rw [topicToSlug, hlower]
    show (⟨stripEdgeUnderscores (nonAlnumRunsToUnderscore (joinWith [' '] ws))⟩ : String) = _
    rw [slug_core ws hws]
    congr 1
    apply stripEdgeUnderscores_id
    · intro c hc
      subst hws1
      rw [joinWith_head ['_'] w1 ws' (hws w1 (by simp)).1] at hc
      have hcw : c ∈ w1 := by
        cases w1 with
        | nil => simp at hc
        | cons a b =>
          simp only [List.head?] at hc
          injection hc with hc
          subst hc
          simp
      exact lowerAlnum_ne_underscore c ((hws w1 (by simp)).2 c hcw)
    · intro c hc
      obtain ⟨u, hu, hlastu⟩ := joinWith_getLast ['_'] ws hne (fun v hv => (hws v hv).1)
      rw [hlastu] at hc
      have hcw : c ∈ u := List.mem_of_mem_getLast? hc
      exact lowerAlnum_ne_underscore c ((hws u hu).2 c hcw)
  refine ⟨hslug, ?_⟩
  rw [hslug, slugToTopic]
  show jsTrim ⟨(joinWith ['_'] ws).map (fun c => if c = '_' then ' ' else c)⟩ = _
  rw [mapUnderscoreSpace_join ws hws, jsTrim]
  congr 1
  apply trimChars_id
  · intro c hc
    subst hws1
    rw [joinWith_head [' '] w1 ws' (hws w1 (by simp)).1] at hc
    have hcw : c ∈ w1 := by
      cases w1 with
      | nil => simp at hc
      | cons a b =>
        simp only [List.head?] at hc
        injection hc with hc
        subst hc
        simp
    exact lowerAlnum_not_jsWs c ((hws w1 (by simp)).2 c hcw)
  · intro c hc
    obtain ⟨u, hu, hlastu⟩ := joinWith_getLast [' '] ws hne (fun v hv => (hws v hv).1)
    rw [hlastu] at hc
    have hcw : c ∈ u := List.mem_of_mem_getLast? hc
    exact lowerAlnum_not_jsWs c ((hws u hu).2 c hcw)

/-! ### Association-map lemmas (for the synchronizer) -/

theorem assocFind_set_self (m : List (String × Doc)) (k : String) (v : Doc) :
    assocFind (assocSet m k v) k = some v := by
  rw [assocSet, assocFind, List.find?_cons_of_pos _ (by simp)]

theorem assocFind_set_ne (m : List (String × Doc)) (k k' : String) (v : Doc)
    (h : k' ≠ k) : assocFind (assocSet m k v) k' = assocFind m k' := by
  have hfind : List.find? (fun e => decide (e.1 = k'))
      (m.filter (fun e => decide (e.1 ≠ k))) =
      List.find? (fun e => decide (e.1 = k')) m := by
    induction m with
    | nil => rfl
    | cons e rest ih =>
      by_cases he : e.1 = k
      · rw [List.filter_cons_of_neg (by simp [he]), ih]
        exact (List.find?_cons_of_neg rest (by
          simp only [decide_eq_true_eq]
          rw [he]
          exact fun hh => h hh.symm)).symm
      · rw [List.filter_cons_of_pos (by simp [he])]
        by_cases he' : e.1 = k'
        · rw [List.find?_cons_of_pos _ (by simp [he']),
            List.find?_cons_of_pos _ (by simp [he'])]
        · rw [List.find?_cons_of_neg _ (by simp [he']),
            List.find?_cons_of_neg _ (by simp [he'])]
          exact ih
  rw [assocSet, assocFind, assocFind]
  rw [List.find?_cons_of_neg _ (by
    simp only [decide_eq_true_eq]
    exact fun hh => h hh.symm)]
  rw [hfind]

theorem assocFind_some (m : List (String × Doc)) (k : String) (v : Doc)
    (h : assocFind m k = some v) : ∃ e ∈ m, e.1 = k ∧ e.2 = v := by
  rw [assocFind] at h
  cases hf : m.find? (fun e => e.1 = k) with
  | none => rw [hf] at h; exact absurd h (by simp)
  | some e =>
    rw [hf] at h
    injection h with h
    exact ⟨e, List.mem_of_find?_eq_some hf, by simpa using List.find?_some hf, h⟩

theorem assocFind_isSome_iff (m : List (String × Doc)) (k : String) :
    (assocFind m k).isSome = true ↔ ∃ e ∈ m, e.1 = k := by
  rw [assocFind]
  cases hf : m.find? (fun e => e.1 = k) with
  | none =>
    simp only [Option.isSome_none]
    constructor
    · intro h; exact absurd h (by simp)
    · intro ⟨e, he, hek⟩
      have : (m.find? (fun e => e.1 = k)).isSome = true :=
        List.find?_isSome.mpr ⟨e, he, by simp [hek]⟩
      rw [hf] at this
      exact absurd this (by simp)
  | some e =>
    simp only [Option.isSome_some, true_iff]
    exact ⟨e, List.mem_of_find?_eq_some hf, by simpa using List.find?_some hf⟩

theorem assocSet_mem (m : List (String × Doc)) (k : String) (v : Doc)
    (e : String × Doc) (h : e ∈ assocSet m k v) :
    e = (k, v) ∨ (e ∈ m ∧ e.1 ≠ k) := by
  rw [assocSet] at h
  rcases List.mem_cons.mp h with h | h
  · exact Or.inl h
  · have hm := List.mem_filter.mp h
    exact Or.inr ⟨hm.1, by simpa using hm.2⟩

theorem assocFind_set_isSome_mono (m : List (String × Doc)) (k k' : String) (v : Doc)
    (h : (assocFind m k').isSome = true) :
    (assocFind (assocSet m k v) k').isSome = true := by
  by_cases hk : k' = k
  · subst hk; rw [assocFind_set_self]; rfl
  · rw [assocFind_set_ne m k k' v hk]; exact h

theorem buildLookup_fold_entries (resolvePath : String → String) (docs : List Doc) :
    ∀ (l : List Doc) (m : List (String × Doc)),
      (∀ e ∈ m, e.1 ≠ "" ∧ resolveExistingPathKey resolvePath e.2.path = e.1 ∧ e.2 ∈ docs) →
      (∀ d ∈ l, d ∈ docs) →
      ∀ e ∈ l.foldl (fun m d =>
          if resolveExistingPathKey resolvePath d.path = "" then m
          else assocSet m (resolveExistingPathKey resolvePath d.path) d) m,
        e.1 ≠ "" ∧ resolveExistingPathKey resolvePath e.2.path = e.1 ∧ e.2 ∈ docs := by
  intro l
  induction l with
  | nil => intro m hm _ e he; exact hm e he
  | cons d rest ih =>
    intro m hm hl e he
    rw [List.foldl_cons] at he
    refine ih _ ?_ (fun x hx => hl x (by simp [hx])) e he
    intro e' he'
    by_cases hk : resolveExistingPathKey resolvePath d.path = ""
    · rw [if_pos hk] at he'
      exact hm e' he'
    · rw [if_neg hk] at he'
      rcases assocSet_mem _ _ _ _ he' with rfl | hmem
      · exact ⟨hk, rfl, hl d (by simp)⟩
      · exact hm e' hmem.1

theorem buildLookup_entries (resolvePath : String → String) (docs : List Doc) :
    ∀ e ∈ buildLookup resolvePath docs,
      e.1 ≠ "" ∧ resolveExistingPathKey resolvePath e.2.path = e.1 ∧ e.2 ∈ docs := by
  rw [buildLookup]
  exact buildLookup_fold_entries resolvePath docs docs [] (by simp) (fun d hd => hd)

theorem buildLookup_fold_covers (resolvePath : String → String) :
    ∀ (l : List Doc) (m : List (String × Doc)) (k : String),
      ((assocFind m k).isSome = true ∨ ∃ d ∈ l, resolveExistingPathKey resolvePath d.path = k) →
      k ≠ "" →
      (assocFind (l.foldl (fun m d =>
          if resolveExistingPathKey resolvePath d.path = "" then m
          else assocSet m (resolveExistingPathKey resolvePath d.path) d) m) k).isSome = true := by
  intro l
  induction l with
  | nil =>
    intro m k h hk
    rcases h with h | ⟨d, hd, _⟩
    · exact h
    · simp at hd
  | cons d rest ih =>
    intro m k h hk
    rw [List.foldl_cons]
    rcases h with h | ⟨d', hd', hkd'⟩
    · refine ih _ k (Or.inl ?_) hk
      by_cases hdk : resolveExistingPathKey resolvePath d.path = ""
      · rw [if_pos hdk]; exact h
      · rw [if_neg hdk]; exact assocFind_set_isSome_mono _ _ _ _ h
    · rcases List.mem_cons.mp hd' with rfl | hd''
      · refine ih _ k (Or.inl ?_) hk
        rw [hkd'] at *
        rw [if_neg hk]
        rw [assocFind_set_self]
        rfl
      · exact ih _ k (Or.inr ⟨d', hd'', hkd'⟩) hk

theorem buildLookup_covers (resolvePath : String → String) (docs : List Doc) :
    ∀ d ∈ docs, resolveExistingPathKey resolvePath d.path ≠ "" →
      (assocFind (buildLookup resolvePath docs)
        (resolveExistingPathKey resolvePath d.path)).isSome = true := by
  intro d hd hk
  rw [buildLookup]
  exact buildLookup_fold_covers resolvePath docs [] _ (Or.inr ⟨d, hd, rfl⟩) hk

theorem buildLookup_inv (resolvePath : String → String) (st : Store) :
    LookupInv resolvePath st (buildLookup resolvePath st.docs) :=
  ⟨buildLookup_entries resolvePath st.docs, buildLookup_covers resolvePath st.docs⟩

theorem upsertDoc_id (s : Source) (provider : String) (i : Nat) :
    (upsertDoc s provider i).id = i := rfl

theorem upsertDoc_path (s : Source) (provider : String) (i : Nat) :
    (upsertDoc s provider i).path = s.sourcePath := rfl

/-- One upsert step preserves the synchronizer invariant, can only grow the
set of present canonical paths, grows the store by exactly one Document on
`added` and none otherwise, leaves the written source's path present, turns
a source whose path is already present into an update, and creates only for
paths not yet present. -/
theorem upsert_ok_spec (resolvePath : String → String) (st : Store)
    (lookup : List (String × Doc)) (s : Source) (provider : String)
    (st' : Store) (lookup' : List (String × Doc)) (r : UpsertResult)
    (hgood : GoodSource resolvePath s)
    (hinv : SyncInv resolvePath st lookup)
    (h : upsertDocument st lookup s provider = Except.ok (st', lookup', r)) :
    SyncInv resolvePath st' lookup' ∧
    (∀ k, PathPresent resolvePath st k → PathPresent resolvePath st' k) ∧
    st'.docs.length = st.docs.length + (if r = UpsertResult.added then 1 else 0) ∧
    (NonSkipped s → PathPresent resolvePath st' s.sourcePath) ∧
    (NonSkipped s → PathPresent resolvePath st s.sourcePath → r = UpsertResult.updated) ∧
    (r = UpsertResult.added → ¬ PathPresent resolvePath st s.sourcePath) ∧
    (r = UpsertResult.added → NonSkipped s) := by
  obtain ⟨hcanon, hSne⟩ := hgood
  obtain ⟨hwf, hup, hli⟩ := hinv
  rw [upsertDocument] at h
  by_cases hload : s.loadThrows = true
  · rw [if_pos hload] at h
    exact absurd h (by simp)
  · rw [if_neg hload] at h
    by_cases hsnip : jsTrim (buildSnippet s.topic s.text s.filename s.ext) = ""
    · rw [if_pos hsnip] at h
      injection h with htup
      have h1 : st = st' := congrArg Prod.fst htup
      have h2 : lookup = lookup' := congrArg (fun p => p.2.1) htup
      have h3 : UpsertResult.skipped = r := congrArg (fun p => p.2.2) htup
      subst h1; subst h2; subst h3
      refine ⟨⟨hwf, hup, hli⟩, fun k hk => hk, by simp, ?_, ?_, ?_, ?_⟩
      · intro hns; exact absurd hsnip hns.2.1
      · intro hns; exact absurd hsnip hns.2.1
      · intro habs; exact absurd habs (by decide)
      · intro habs; exact absurd habs (by decide)
    · rw [if_neg hsnip] at h
      have hidforall : ∀ a ∈ st.docs, ∀ b ∈ st.docs, a ≠ b → a.id ≠ b.id := by
        intro a ha b hb hab
        exact hwf.1.forall (fun x y hxy => hxy.symm) ha hb hab
      split at h
      · next existing hfind =>
        split at h
        · next hw =>
          injection h with htup
          have h1 : st = st' := congrArg Prod.fst htup
          have h2 : lookup = lookup' := congrArg (fun p => p.2.1) htup
          have h3 : UpsertResult.skipped = r := congrArg (fun p => p.2.2) htup
          subst h1; subst h2; subst h3
          refine ⟨⟨hwf, hup, hli⟩, fun k hk => hk, by simp, ?_, ?_, ?_, ?_⟩
          · intro hns; exact absurd hw (by simp [hns.2.2])
          · intro hns; exact absurd hw (by simp [hns.2.2])
          · intro habs; exact absurd habs (by decide)
          · intro habs; exact absurd habs (by decide)
        · next hw =>
          injection h with htup
          have h1 : _ = st' := congrArg Prod.fst htup
          have h2 : _ = lookup' := congrArg (fun p => p.2.1) htup
          have h3 : UpsertResult.updated = r := congrArg (fun p => p.2.2) htup
          subst h1; subst h2; subst h3
          obtain ⟨e, hem, hek, hev⟩ := assocFind_some lookup s.sourcePath existing hfind
          have hprops := hli.1 e hem
          have hexmem : existing ∈ st.docs := by rw [← hev]; exact hprops.2.2
          have hexkey : resolveExistingPathKey resolvePath existing.path = s.sourcePath := by
            rw [← hev] at *
            rw [hprops.2.1, hek]
          have huniq_of_id : ∀ d ∈ st.docs, d.id = existing.id → d = existing := by
            intro d hd hdi
            by_contra hne'
            exact hidforall d hd existing hexmem hne' hdi
          have hNid : (upsertDoc s provider existing.id).id = existing.id := rfl
          have hNkey : resolveExistingPathKey resolvePath
              (upsertDoc s provider existing.id).path = s.sourcePath := by
            rw [upsertDoc_path]; exact hcanon
          have hfd_id : ∀ d : Doc,
              ((if d.id = existing.id then upsertDoc s provider existing.id else d)).id =
                d.id := by
            intro d
            by_cases hdi : d.id = existing.id
            · rw [if_pos hdi, hNid, hdi]
            · rw [if_neg hdi]
          have hfd_key : ∀ d ∈ st.docs,
              resolveExistingPathKey resolvePath
                ((if d.id = existing.id then upsertDoc s provider existing.id else d)).path =
              resolveExistingPathKey resolvePath d.path := by
            intro d hd
            by_cases hdi : d.id = existing.id
            · rw [if_pos hdi, hNkey, huniq_of_id d hd hdi, hexkey]
            · rw [if_neg hdi]
          have hNmem : upsertDoc s provider existing.id ∈
              st.docs.map (fun d =>
                if d.id = existing.id then upsertDoc s provider existing.id else d) := by
            refine List.mem_map.mpr ⟨existing, hexmem, ?_⟩
            rw [if_pos rfl]
          have hmono : ∀ k, PathPresent resolvePath st k →
              PathPresent resolvePath
                ({ st with docs := st.docs.map (fun d =>
                  if d.id = existing.id then upsertDoc s provider existing.id else d) }) k := by
            intro k ⟨a, ha, hka⟩
            exact ⟨_, List.mem_map.mpr ⟨a, ha, rfl⟩, by rw [hfd_key a ha]; exact hka⟩
          refine ⟨⟨⟨?_, ?_⟩, ?_, ?_, ?_⟩, hmono, by simp, ?_, ?_, ?_, ?_⟩
          · exact List.pairwise_map.mpr (hwf.1.imp (fun hab => by
              rw [hfd_id, hfd_id]; exact hab))
          · intro d hd
            obtain ⟨a, ha, rfl⟩ := List.mem_map.mp hd
            show _ < st.nextId
            rw [hfd_id]
            exact hwf.2 a ha
          · exact List.pairwise_map.mpr (hup.imp_of_mem (fun ha hb hab => by
              rw [hfd_key _ ha, hfd_key _ hb]; exact hab))
          · intro e' he'
            rcases assocSet_mem _ _ _ _ he' with rfl | ⟨hmem, hne'⟩
            · exact ⟨hSne, hNkey, hNmem⟩
            · have hp := hli.1 e' hmem
              refine ⟨hp.1, hp.2.1, ?_⟩
              have hne2 : e'.2 ≠ existing := by
                intro habs
                apply hne'
                rw [← hp.2.1, habs]
                exact hexkey
              have hid2 : e'.2.id ≠ existing.id := by
                intro habs
                exact hne2 (huniq_of_id e'.2 hp.2.2 habs)
              exact List.mem_map.mpr ⟨e'.2, hp.2.2, by rw [if_neg hid2]⟩
          · intro d hd hkd
            obtain ⟨a, ha, rfl⟩ := List.mem_map.mp hd
            rw [hfd_key a ha] at hkd ⊢
            by_cases hka : resolveExistingPathKey resolvePath a.path = s.sourcePath
            · rw [hka, assocFind_set_self]; rfl
            · rw [assocFind_set_ne _ _ _ _ hka]
              exact hli.2 a ha hkd
          · intro _
            exact ⟨_, hNmem, hNkey⟩
          · intro _ _
            rfl
          · intro habs; exact absurd habs (by decide)
          · intro habs; exact absurd habs (by decide)
      · next hfind =>
        split at h
        · next hw =>
          injection h with htup
          have h1 : st = st' := congrArg Prod.fst htup
          have h2 : lookup = lookup' := congrArg (fun p => p.2.1) htup
          have h3 : UpsertResult.skipped = r := congrArg (fun p => p.2.2) htup
          subst h1; subst h2; subst h3
          refine ⟨⟨hwf, hup, hli⟩, fun k hk => hk, by simp, ?_, ?_, ?_, ?_⟩
          · intro hns; exact absurd hw (by simp [hns.2.2])
          · intro hns; exact absurd hw (by simp [hns.2.2])
          · intro habs; exact absurd habs (by decide)
          · intro habs; exact absurd habs (by decide)
        · next hw =>
          injection h with htup
          have h1 : _ = st' := congrArg Prod.fst htup
          have h2 : _ = lookup' := congrArg (fun p => p.2.1) htup
          have h3 : UpsertResult.added = r := congrArg (fun p => p.2.2) htup
          subst h1; subst h2; subst h3
          have hnotpres : ¬ PathPresent resolvePath st s.sourcePath := by
            intro ⟨d, hd, hkd⟩
            have := hli.2 d hd (by rw [hkd]; exact hSne)
            rw [hkd, hfind] at this
            exact absurd this (by simp)
          have hNid : (upsertDoc s provider st.nextId).id = st.nextId := rfl
          have hNkey : resolveExistingPathKey resolvePath
              (upsertDoc s provider st.nextId).path = s.sourcePath := by
            rw [upsertDoc_path]; exact hcanon
          have hNmem : upsertDoc s provider st.nextId ∈
              st.docs ++ [upsertDoc s provider st.nextId] := by simp
          refine ⟨⟨⟨?_, ?_⟩, ?_, ?_, ?_⟩, ?_, by simp, ?_, ?_, ?_, ?_⟩
          · refine List.pairwise_append.mpr ⟨hwf.1, by simp, ?_⟩
            intro a ha b hb
            rw [List.mem_singleton.mp hb, hNid]
            exact Nat.ne_of_lt (hwf.2 a ha)
          · intro d hd
            rcases List.mem_append.mp hd with hd | hd
            · exact Nat.lt_succ_of_lt (hwf.2 d hd)
            · rw [List.mem_singleton.mp hd, hNid]
              exact Nat.lt_succ_self _
          · refine List.pairwise_append.mpr ⟨hup, by simp, ?_⟩
            intro a ha b hb
            rw [List.mem_singleton.mp hb, hNkey]
            intro habs
            exact hnotpres ⟨a, ha, habs⟩
          · intro e' he'
            rcases assocSet_mem _ _ _ _ he' with rfl | ⟨hmem, _⟩
            · exact ⟨hSne, hNkey, hNmem⟩
            · have hp := hli.1 e' hmem
              exact ⟨hp.1, hp.2.1, List.mem_append_left _ hp.2.2⟩
          · intro d hd hkd
            rcases List.mem_append.mp hd with hd | hd
            · by_cases hka : resolveExistingPathKey resolvePath d.path = s.sourcePath
              · rw [hka, assocFind_set_self]; rfl
              · rw [assocFind_set_ne _ _ _ _ hka]
                exact hli.2 d hd hkd
            · rw [List.mem_singleton.mp hd, hNkey, assocFind_set_self]
              rfl
          · intro k ⟨a, ha, hka⟩
            exact ⟨a, List.mem_append_left _ ha, hka⟩
          · intro _
            exact ⟨_, hNmem, hNkey⟩
          · intro _ hpres
            exact absurd hpres hnotpres
          · intro _
            exact hnotpres
          · intro _
            exact ⟨by simpa using hload, hsnip, by simpa using hw⟩

/-- An `upsertDocument` error can only come from a throwing load. -/
theorem upsert_error_loadThrows (st : Store) (lookup : List (String × Doc))
    (s : Source) (provider : String) (e : Unit)
    (h : upsertDocument st lookup s provider = Except.error e) : s.loadThrows = true := by
  by_contra hload
  rw [upsertDocument, if_neg hload] at h
  by_cases hsnip : jsTrim (buildSnippet s.topic s.text s.filename s.ext) = ""
  · rw [if_pos hsnip] at h
    exact absurd h (by simp)
  · rw [if_neg hsnip] at h
    split at h
    · split at h <;> exact absurd h (by simp)
    · split at h <;> exact absurd h (by simp)

/-- Unfolding the loop when the head source throws: the try/catch skips it. -/
theorem runSources_cons_error (st : Store) (lookup : List (String × Doc)) (s : Source)
    (rest : List Source) (provider : String) (a u : Nat) (e : Unit)
    (h : upsertDocument st lookup s provider = Except.error e) :
    runSources st lookup (s :: rest) provider a u =
      runSources st lookup rest provider a u := by
  rw [runSources, h]

/-- Unfolding the loop when the head source is created. -/
theorem runSources_cons_added (st : Store) (lookup : List (String × Doc)) (s : Source)
    (rest : List Source) (provider : String) (a u : Nat) (st2 : Store)
    (lookup2 : List (String × Doc))
    (h : upsertDocument st lookup s provider = Except.ok (st2, lookup2, UpsertResult.added)) :
    runSources st lookup (s :: rest) provider a u =
      runSources st2 lookup2 rest provider (a + 1) u := by
  rw [runSources, h]

/-- Unfolding the loop when the head source is updated. -/
theorem runSources_cons_updated (st : Store) (lookup : List (String × Doc)) (s : Source)
    (rest : List Source) (provider : String) (a u : Nat) (st2 : Store)
    (lookup2 : List (String × Doc))
    (h : upsertDocument st lookup s provider = Except.ok (st2, lookup2, UpsertResult.updated)) :
    runSources st lookup (s :: rest) provider a u =
      runSources st2 lookup2 rest provider a (u + 1) := by
  rw [runSources, h]

/-- Unfolding the loop when the head source is skipped. -/
theorem runSources_cons_skipped (st : Store) (lookup : List (String × Doc)) (s : Source)
    (rest : List Source) (provider : String) (a u : Nat) (st2 : Store)
    (lookup2 : List (String × Doc))
    (h : upsertDocument st lookup s provider = Except.ok (st2, lookup2, UpsertResult.skipped)) :
    runSources st lookup (s :: rest) provider a u =
      runSources st2 lookup2 rest provider a u := by
  rw [runSources, h]

/-- One pass of the loop preserves the synchronizer invariant, only grows
the set of present canonical paths, grows the store by exactly the number
of `added` outcomes, and leaves every non-skipped source's path present. -/
theorem runSources_spec (resolvePath : String → String) (provider : String)
    (sources : List Source) :
    ∀ (st : Store) (lookup : List (String × Doc)) (a u : Nat),
      (∀ s ∈ sources, GoodSource resolvePath s) →
      SyncInv resolvePath st lookup →
      ∃ lookup2,
        SyncInv resolvePath (runSources st lookup sources provider a u).1 lookup2 ∧
        (∀ k, PathPresent resolvePath st k →
          PathPresent resolvePath (runSources st lookup sources provider a u).1 k) ∧
        (runSources st lookup sources provider a u).1.docs.length + a =
          st.docs.length + (runSources st lookup sources provider a u).2.1 ∧
        (∀ s ∈ sources, NonSkipped s →
          PathPresent resolvePath (runSources st lookup sources provider a u).1
            s.sourcePath) := by
  induction sources with
  | nil =>
    intro st lookup a u _ hinv
    exact ⟨lookup, hinv, fun k hk => hk, rfl, by intro s hs; exact absurd hs (by simp)⟩
  | cons s rest ih =>
    intro st lookup a u hgoods hinv
    cases hup : upsertDocument st lookup s provider with
    | error e =>
      rw [runSources_cons_error st lookup s rest provider a u e hup]
      obtain ⟨l2, hinv2, hmono2, hlen2, hpres2⟩ :=
        ih st lookup a u (fun x hx => hgoods x (List.mem_cons_of_mem s hx)) hinv
      refine ⟨l2, hinv2, hmono2, hlen2, ?_⟩
      intro x hx hns
      rcases List.mem_cons.mp hx with rfl | hx'
      · exact absurd (upsert_error_loadThrows st lookup x provider e hup) (by simp [hns.1])
      · exact hpres2 x hx' hns
    | ok t =>
      obtain ⟨st2, lookup2, r⟩ := t
      have hstep := upsert_ok_spec resolvePath st lookup s provider st2 lookup2 r
        (hgoods s (List.mem_cons_self s rest)) hinv hup
      cases r with
      | added =>
        rw [runSources_cons_added st lookup s rest provider a u st2 lookup2 hup]
        obtain ⟨l3, hinv3, hmono3, hlen3, hpres3⟩ :=
          ih st2 lookup2 (a + 1) u (fun x hx => hgoods x (List.mem_cons_of_mem s hx)) hstep.1
        refine ⟨l3, hinv3, fun k hk => hmono3 k (hstep.2.1 k hk), ?_, ?_⟩
        · have hl : st2.docs.length = st.docs.length + 1 := by simpa using hstep.2.2.1
          omega
        · intro x hx hns
          rcases List.mem_cons.mp hx with rfl | hx'
          · exact hmono3 _ (hstep.2.2.2.1 hns)
          · exact hpres3 x hx' hns
      | updated =>
        rw [runSources_cons_updated st lookup s rest provider a u st2 lookup2 hup]
        obtain ⟨l3, hinv3, hmono3, hlen3, hpres3⟩ :=
          ih st2 lookup2 a (u + 1) (fun x hx => hgoods x (List.mem_cons_of_mem s hx)) hstep.1
        refine ⟨l3, hinv3, fun k hk => hmono3 k (hstep.2.1 k hk), ?_, ?_⟩
        · have hl : st2.docs.length = st.docs.length := by simpa using hstep.2.2.1
          omega
        · intro x hx hns
          rcases List.mem_cons.mp hx with rfl | hx'
          · exact hmono3 _ (hstep.2.2.2.1 hns)
          · exact hpres3 x hx' hns
      | skipped =>
        rw [runSources_cons_skipped st lookup s rest provider a u st2 lookup2 hup]
        obtain ⟨l3, hinv3, hmono3, hlen3, hpres3⟩ :=
          ih st2 lookup2 a u (fun x hx => hgoods x (List.mem_cons_of_mem s hx)) hstep.1
        refine ⟨l3, hinv3, fun k hk => hmono3 k (hstep.2.1 k hk), ?_, ?_⟩
        · have hl : st2.docs.length = st.docs.length := by simpa using hstep.2.2.1
          omega
        · intro x hx hns
          rcases List.mem_cons.mp hx with rfl | hx'
          · exact hmono3 _ (hstep.2.2.2.1 hns)
          · exact hpres3 x hx' hns

/-- When every non-skipped source's canonical path is already present, the
loop creates nothing: the `added` counter and the Document count are
unchanged. -/
theorem runSources_second (resolvePath : String → String) (provider : String)
    (sources : List Source) :
    ∀ (st : Store) (lookup : List (String × Doc)) (a u : Nat),
      (∀ s ∈ sources, GoodSource resolvePath s) →
      SyncInv resolvePath st lookup →
      (∀ s ∈ sources, NonSkipped s → PathPresent resolvePath st s.sourcePath) →
      (runSources st lookup sources provider a u).2.1 = a ∧
      (runSources st lookup sources provider a u).1.docs.length = st.docs.length := by
  induction sources with
  | nil =>
    intro st lookup a u _ _ _
    exact ⟨rfl, rfl⟩
  | cons s rest ih =>
    intro st lookup a u hgoods hinv hpres
    cases hup : upsertDocument st lookup s provider with
    | error e =>
      rw [runSources_cons_error st lookup s rest provider a u e hup]
      exact ih st lookup a u (fun x hx => hgoods x (List.mem_cons_of_mem s hx)) hinv
        (fun x hx hns => hpres x (List.mem_cons_of_mem s hx) hns)
    | ok t =>
      obtain ⟨st2, lookup2, r⟩ := t
      have hstep := upsert_ok_spec resolvePath st lookup s provider st2 lookup2 r
        (hgoods s (List.mem_cons_self s rest)) hinv hup
      cases r with
      | added =>
        exact absurd (hpres s (List.mem_cons_self s rest) (hstep.2.2.2.2.2.2 rfl))
          (hstep.2.2.2.2.2.1 rfl)
      | updated =>
        rw [runSources_cons_updated st lookup s rest provider a u st2 lookup2 hup]
        have hl : st2.docs.length = st.docs.length := by simpa using hstep.2.2.1
        have hrec := ih st2 lookup2 a (u + 1)
          (fun x hx => hgoods x (List.mem_cons_of_mem s hx)) hstep.1
          (fun x hx hns => hstep.2.1 _ (hpres x (List.mem_cons_of_mem s hx) hns))
        exact ⟨hrec.1, hrec.2.trans hl⟩
      | skipped =>
        rw [runSources_cons_skipped st lookup s rest provider a u st2 lookup2 hup]
        have hl : st2.docs.length = st.docs.length := by simpa using hstep.2.2.1
        have hrec := ih st2 lookup2 a u
          (fun x hx => hgoods x (List.mem_cons_of_mem s hx)) hstep.1
          (fun x hx hns => hstep.2.1 _ (hpres x (List.mem_cons_of_mem s hx) hns))
        exact ⟨hrec.1, hrec.2.trans hl⟩

/-- C1: over any finite enumerated source list (canonical, non-empty
paths), an import run — `importTopic` or the preprocess run — preserves
"at most one Document per canonicalized path" and grows the store by
exactly the number of `added` outcomes; a source whose canonical path is
already held by a Document (pre-existing or created earlier in the same
run) yields an update and a create happens only for a path not yet
present; and a second `importTopic` over the unchanged source set yields
`added = 0` and an unchanged Document count. -/
theorem importTopic_dedup_idempotent (resolvePath : String → String)
    (bucketDisplay s3Prefix : String) (st : Store) (topicLabel : String)
    (sources : List Source) (provider : String)
    (hwf : StoreWf st) (huniq : UniquePaths resolvePath st)
    (hgood : ∀ s ∈ sources, GoodSource resolvePath s) :
    UniquePaths resolvePath
      (importTopic resolvePath bucketDisplay s3Prefix st topicLabel sources provider).store ∧
    UniquePaths resolvePath (preprocessRun resolvePath st sources provider).store ∧
    (importTopic resolvePath bucketDisplay s3Prefix st topicLabel sources
        provider).store.docs.length =
      st.docs.length +
        (importTopic resolvePath bucketDisplay s3Prefix st topicLabel sources provider).added ∧
    (∀ (st1 : Store) (lookup1 : List (String × Doc)) (s : Source) (st2 : Store)
      (lookup2 : List (String × Doc)) (r : UpsertResult),
      SyncInv resolvePath st1 lookup1 → GoodSource resolvePath s →
      upsertDocument st1 lookup1 s provider = Except.ok (st2, lookup2, r) →
      (NonSkipped s → PathPresent resolvePath st1 s.sourcePath → r = UpsertResult.updated) ∧
      (r = UpsertResult.added → ¬ PathPresent resolvePath st1 s.sourcePath)) ∧
    (importTopic resolvePath bucketDisplay s3Prefix
        (importTopic resolvePath bucketDisplay s3Prefix st topicLabel sources provider).store
        topicLabel sources provider).added = 0 ∧
    (importTopic resolvePath bucketDisplay s3Prefix
        (importTopic resolvePath bucketDisplay s3Prefix st topicLabel sources provider).store
        topicLabel sources provider).store.docs.length =
      (importTopic resolvePath bucketDisplay s3Prefix st topicLabel sources
        provider).store.docs.length := by
  have hstep4 : ∀ (st1 : Store) (lookup1 : List (String × Doc)) (s : Source) (st2 : Store)
      (lookup2 : List (String × Doc)) (r : UpsertResult),
      SyncInv resolvePath st1 lookup1 → GoodSource resolvePath s →
      upsertDocument st1 lookup1 s provider = Except.ok (st2, lookup2, r) →
      (NonSkipped s → PathPresent resolvePath st1 s.sourcePath → r = UpsertResult.updated) ∧
      (r = UpsertResult.added → ¬ PathPresent resolvePath st1 s.sourcePath) := by
    intro st1 lookup1 s st2 lookup2 r hinv1 hg hok
    have h := upsert_ok_spec resolvePath st1 lookup1 s provider st2 lookup2 r hg hinv1 hok
    exact ⟨h.2.2.2.2.1, h.2.2.2.2.2.1⟩
  by_cases hempty : sources.length = 0
  · have hnil : sources = [] := List.eq_nil_of_length_eq_zero hempty
    subst hnil
    exact ⟨huniq, huniq, rfl, hstep4, rfl, rfl⟩
  · have hinv0 : SyncInv resolvePath st (buildLookup resolvePath st.docs) :=
      ⟨hwf, huniq, buildLookup_inv resolvePath st⟩
    obtain ⟨l2, hinv2, hmono2, hlen2, hpres2⟩ :=
      runSources_spec resolvePath provider sources st
        (buildLookup resolvePath st.docs) 0 0 hgood hinv0
    have hout : (importTopic resolvePath bucketDisplay s3Prefix st topicLabel sources
        provider).store =
        (runSources st (buildLookup resolvePath st.docs) sources provider 0 0).1 := by
      rw [importTopic, if_neg hempty]
    have houtAdd : (importTopic resolvePath bucketDisplay s3Prefix st topicLabel sources
        provider).added =
        (runSources st (buildLookup resolvePath st.docs) sources provider 0 0).2.1 := by
      rw [importTopic, if_neg hempty]
    have hpre : (preprocessRun resolvePath st sources provider).store =
        (runSources st (buildLookup resolvePath st.docs) sources provider 0 0).1 := rfl
    have hinvB : SyncInv resolvePath
        (runSources st (buildLookup resolvePath st.docs) sources provider 0 0).1
        (buildLookup resolvePath
          (runSources st (buildLookup resolvePath st.docs) sources provider 0 0).1.docs) :=
      ⟨hinv2.1, hinv2.2.1, buildLookup_inv resolvePath _⟩
    have hsec := runSources_second resolvePath provider sources
      (runSources st (buildLookup resolvePath st.docs) sources provider 0 0).1
      (buildLookup resolvePath
        (runSources st (buildLookup resolvePath st.docs) sources provider 0 0).1.docs)
      0 0 hgood hinvB hpres2
    have hO2a : (importTopic resolvePath bucketDisplay s3Prefix
        (runSources st (buildLookup resolvePath st.docs) sources provider 0 0).1
        topicLabel sources provider).added =
        (runSources (runSources st (buildLookup resolvePath st.docs) sources provider 0 0).1
          (buildLookup resolvePath
            (runSources st (buildLookup resolvePath st.docs) sources provider 0 0).1.docs)
          sources provider 0 0).2.1 := by
      rw [importTopic, if_neg hempty]
    have hO2s : (importTopic resolvePath bucketDisplay s3Prefix
        (runSources st (buildLookup resolvePath st.docs) sources provider 0 0).1
        topicLabel sources provider).store =
        (runSources (runSources st (buildLookup resolvePath st.docs) sources provider 0 0).1
          (buildLookup resolvePath
            (runSources st (buildLookup resolvePath st.docs) sources provider 0 0).1.docs)
          sources provider 0 0).1 := by
      rw [importTopic, if_neg hempty]
    refine ⟨?_, ?_, ?_, hstep4, ?_, ?_⟩
    · rw [hout]; exact hinv2.2.1
    · rw [hpre]; exact hinv2.2.1
    · rw [hout, houtAdd]; omega
    · rw [hout, hO2a]; exact hsec.1
    · rw [hout, hO2s]; exact hsec.2

/-- Under the identity resolver every non-empty path is its own canonical
key (both the `s3://` and the `path.resolve` branch return it unchanged). -/
theorem resolveExistingPathKey_id (p : String) (hp : p ≠ "") :
    resolveExistingPathKey (fun q => q) p = p := by
  rw [resolveExistingPathKey, if_neg hp]
  split
  · rfl
  · rfl

/-- C1 witness: the concrete empty store and one-source enumeration satisfy
the hypotheses, and the second import over the unchanged source set adds
nothing. -/
theorem importTopic_dedup_idempotent_witness :
    StoreWf c1Store ∧ UniquePaths (fun p => p) c1Store ∧
    (∀ s ∈ [c1Source], GoodSource (fun p => p) s) ∧
    (importTopic (fun p => p) "bucket" "documents/"
        (importTopic (fun p => p) "bucket" "documents/" c1Store "forensics"
          [c1Source] "").store
        "forensics" [c1Source] "").added = 0 := by
  have hwf : StoreWf c1Store :=
    ⟨List.Pairwise.nil, fun d hd => absurd hd (List.not_mem_nil d)⟩
  have huniq : UniquePaths (fun p => p) c1Store := List.Pairwise.nil
  have hgood : ∀ s ∈ [c1Source], GoodSource (fun p => p) s := by
    intro s hs
    rw [List.mem_singleton] at hs
    subst hs
    exact ⟨resolveExistingPathKey_id c1Source.sourcePath (by decide), by decide⟩
  exact ⟨hwf, huniq, hgood,
    (importTopic_dedup_idempotent (fun p => p) "bucket" "documents/" c1Store "forensics"
      [c1Source] "" hwf huniq hgood).2.2.2.2.1⟩

/-! ### Stable descending sort lemmas (for the retriever) -/

theorem insertDescBy_perm {α : Type} (le : α → α → Bool) (x : α) (l : List α) :
    (insertDescBy le x l).Perm (x :: l) := by
  induction l with
  | nil => exact List.Perm.refl _
  | cons y ys ih =>
    rw [insertDescBy]
    by_cases h : le y x = true
    · rw [if_pos h]
    · rw [if_neg h]
      exact ((ih.cons y).trans (List.Perm.swap x y ys))

theorem sortDescBy_perm {α : Type} (le : α → α → Bool) (l : List α) :
    (sortDescBy le l).Perm l := by
  induction l with
  | nil => exact List.Perm.refl _
  | cons x xs ih =>
    rw [sortDescBy]
    exact (insertDescBy_perm le x (sortDescBy le xs)).trans (ih.cons x)

theorem insertDescBy_pairwise {α : Type} (le : α → α → Bool)
    (htot : ∀ a b, le a b = true ∨ le b a = true)
    (htrans : ∀ a b c, le a b = true → le b c = true → le a c = true)
    (x : α) (l : List α) (h : l.Pairwise (fun p q => le q p = true)) :
    (insertDescBy le x l).Pairwise (fun p q => le q p = true) := by
  induction l with
  | nil => simp [insertDescBy]
  | cons y ys ih =>
    rw [insertDescBy]
    rcases List.pairwise_cons.mp h with ⟨hy, hys⟩
    by_cases hc : le y x = true
    · rw [if_pos hc]
      refine List.pairwise_cons.mpr ⟨?_, h⟩
      intro z hz
      rcases List.mem_cons.mp hz with rfl | hz'
      · exact hc
      · exact htrans z y x (hy z hz') hc
    · rw [if_neg hc]
      refine List.pairwise_cons.mpr ⟨?_, ih hys⟩
      intro z hz
      have hz' := (insertDescBy_perm le x ys).mem_iff.mp hz
      rcases List.mem_cons.mp hz' with rfl | hz''
      · rcases htot z y with hzy | hyz
        · exact hzy
        · exact absurd hyz hc
      · exact hy z hz''

theorem sortDescBy_pairwise {α : Type} (le : α → α → Bool)
    (htot : ∀ a b, le a b = true ∨ le b a = true)
    (htrans : ∀ a b c, le a b = true → le b c = true → le a c = true)
    (l : List α) :
    (sortDescBy le l).Pairwise (fun p q => le q p = true) := by
  induction l with
  | nil => simp [sortDescBy]
  | cons x xs ih =>
    rw [sortDescBy]
    exact insertDescBy_pairwise le htot htrans x _ ih

theorem insertDescBy_filter_key {α : Type} (key : α → Nat) (x : α) (l : List α) (n : Nat) :
    (insertDescBy (fun a b => decide (key a ≤ key b)) x l).filter
        (fun p => decide (key p = n)) =
      if key x = n then x :: l.filter (fun p => decide (key p = n))
      else l.filter (fun p => decide (key p = n)) := by
  induction l with
  | nil =>
    rw [insertDescBy]
    by_cases hx : key x = n
    · rw [if_pos hx]
      simp [List.filter, hx]
    · rw [if_neg hx]
      simp [List.filter, hx]
  | cons y ys ih =>
    rw [insertDescBy]
    by_cases hc : key y ≤ key x
    · rw [if_pos (by simpa using hc)]
      by_cases hx : key x = n
      · rw [if_pos hx]
        simp [List.filter, hx]
      · rw [if_neg hx]
        simp [List.filter, hx]
    · rw [if_neg (by simpa using hc)]
      rw [List.filter_cons, List.filter_cons, ih]
      by_cases hy : key y = n
      · have hx : ¬ key x = n := by omega
        simp [hy, hx]
      · by_cases hx : key x = n <;> simp [hy, hx]

theorem sortDescBy_filter_key {α : Type} (key : α → Nat) (l : List α) (n : Nat) :
    (sortDescBy (fun a b => decide (key a ≤ key b)) l).filter
        (fun p => decide (key p = n)) =
      l.filter (fun p => decide (key p = n)) := by
  induction l with
  | nil => rfl
  | cons x xs ih =>
    rw [sortDescBy, insertDescBy_filter_key, ih, List.filter_cons]
    by_cases hx : key x = n
    · rw [if_pos hx]
      simp [hx]
    · rw [if_neg hx]
      simp [hx]

/-! ### C3: keyword fallback -/

/-- C3: when no candidate Document holds a non-empty embedding tagged with
the requested provider, `retrieveContext` never calls the embedding backend
(`embedCalls = 0`), performs no cosine comparison, and returns exactly the
keyword fallback: candidates scored by how many query tokens (lowercased,
split on non-word characters, empties dropped) occur as substrings of their
lowercased text, sorted descending by a stable sort (ties keep prior
relative order, witnessed by the per-score filter identity and the
permutation property), truncated to at most `k` texts. -/
theorem retrieve_fallback_spec (computeEmb : String → String → Option (List ℝ))
    (parseEmb : String → List ℝ) (allDocs : List Doc) (topic : Option String)
    (query : String) (k : Nat) (provider : String)
    (hnone : embCandidates (candidatesFor allDocs topic) provider = []) :
    retrieveContext computeEmb parseEmb allDocs topic query k provider =
      fallbackTrace (candidatesFor allDocs topic) query k ∧
    (retrieveContext computeEmb parseEmb allDocs topic query k provider).embedCalls = 0 ∧
    (retrieveContext computeEmb parseEmb allDocs topic query k provider).scoredDocs = [] ∧
    (retrieveContext computeEmb parseEmb allDocs topic query k provider).results =
      fallbackRanking (candidatesFor allDocs topic) query k ∧
    (retrieveContext computeEmb parseEmb allDocs topic query k provider).results.length ≤ k ∧
    (sortDescBy (fun a b => a.2 ≤ b.2)
        (fallbackScored (candidatesFor allDocs topic) query)).Pairwise
      (fun p q => q.2 ≤ p.2) ∧
    (∀ n, (sortDescBy (fun a b => a.2 ≤ b.2)
        (fallbackScored (candidatesFor allDocs topic) query)).filter (fun p => p.2 = n) =
      (fallbackScored (candidatesFor allDocs topic) query).filter (fun p => p.2 = n)) ∧
    (sortDescBy (fun a b => a.2 ≤ b.2)
        (fallbackScored (candidatesFor allDocs topic) query)).Perm
      (fallbackScored (candidatesFor allDocs topic) query) := by
  have hmain : retrieveContext computeEmb parseEmb allDocs topic query k provider =
      fallbackTrace (candidatesFor allDocs topic) query k := by
    by_cases hq : query = ""
    · simp [retrieveContext, hq]
    · simp [retrieveContext, hq, hnone]
  have hsorted := sortDescBy_pairwise (fun (a b : Doc × Nat) => decide (a.2 ≤ b.2))
    (fun a b => by rcases Nat.le_total a.2 b.2 with h | h <;> [left; right] <;> simpa)
    (fun a b c h1 h2 => by simp only [decide_eq_true_eq] at h1 h2 ⊢; omega)
    (fallbackScored (candidatesFor allDocs topic) query)
  refine ⟨hmain, by rw [hmain]; rfl, by rw [hmain]; rfl, by rw [hmain]; rfl, ?_, ?_, ?_, ?_⟩
  · rw [hmain]
    show (fallbackRanking (candidatesFor allDocs topic) query k).length ≤ k
    rw [fallbackRanking, List.length_map]
    exact (List.length_take_le _ _)
  · exact List.Pairwise.imp (by intro p q h; simpa using h) hsorted
  · intro n
    exact sortDescBy_filter_key (fun p : Doc × Nat => p.2)
      (fallbackScored (candidatesFor allDocs topic) query) n
  · exact sortDescBy_perm _ _

/-- C3 witness: the fallback applied to a concrete one-document store with no
embedded candidates. -/
theorem retrieve_fallback_spec_witness :
    embCandidates (candidatesFor [⟨0, "f", "/p", some "forensics", "fiber evidence", "",
      none⟩] (some "forensics")) "openai" = [] ∧
    (retrieveContext (fun _ _ => some [(1 : ℝ)]) (fun _ => [(1 : ℝ)])
      [⟨0, "f", "/p", some "forensics", "fiber evidence", "", none⟩]
      (some "forensics") "fiber" 2 "openai").embedCalls = 0 ∧
    (retrieveContext (fun _ _ => some [(1 : ℝ)]) (fun _ => [(1 : ℝ)])
      [⟨0, "f", "/p", some "forensics", "fiber evidence", "", none⟩]
      (some "forensics") "fiber" 2 "openai").results =
      fallbackRanking (candidatesFor [⟨0, "f", "/p", some "forensics", "fiber evidence", "",
        none⟩] (some "forensics")) "fiber" 2 := by
  have h := retrieve_fallback_spec (fun _ _ => some [(1 : ℝ)]) (fun _ => [(1 : ℝ)])
    [⟨0, "f", "/p", some "forensics", "fiber evidence", "", none⟩]
    (some "forensics") "fiber" 2 "openai" (by decide)
  exact ⟨by decide, h.2.1, h.2.2.2.1⟩

/-! ### C2: embedding/provider pairing -/

/-- C2: every Document whose embedding is cosine-scored against the query
embedding (the `scoredDocs` of the trace) carries a non-empty embedding
tagged with exactly the requested provider; the query embedding itself is
requested from that same provider, so no cross-provider comparison ever
happens. -/
theorem retrieve_provider_pairing (computeEmb : String → String → Option (List ℝ))
    (parseEmb : String → List ℝ) (allDocs : List Doc) (topic : Option String)
    (query : String) (k : Nat) (provider : String) :
    ∀ d ∈ (retrieveContext computeEmb parseEmb allDocs topic query k provider).scoredDocs,
      d.embedding_provider = some provider ∧ d.embedding ≠ "" := by
  intro d hd
  by_cases hq : query = ""
  · simp [retrieveContext, hq, fallbackTrace] at hd
  · by_cases hlen : 0 < (embCandidates (candidatesFor allDocs topic) provider).length
    · cases hemb : computeEmb provider (jsSlice query 1000) with
      | some qEmb =>
        have hd' : d ∈ embCandidates (candidatesFor allDocs topic) provider := by
          simpa [retrieveContext, hq, hlen, hemb] using hd
        have := List.of_mem_filter hd'
        simp only [decide_eq_true_eq] at this
        exact ⟨this.2, this.1⟩
      | none =>
        simp [retrieveContext, hq, hlen, hemb] at hd
    · simp [retrieveContext, hq, hlen, fallbackTrace] at hd

/-- C2 witness: the pairing invariant applied to a concrete scored
Document. -/
theorem retrieve_provider_pairing_witness :
    (⟨0, "f", "/p", some "t", "txt", "[1]", some "openai"⟩ : Doc).embedding_provider =
      some "openai" ∧
    (⟨0, "f", "/p", some "t", "txt", "[1]", some "openai"⟩ : Doc).embedding ≠ "" :=
  retrieve_provider_pairing (fun _ _ => some [(1 : ℝ)]) (fun _ => [(1 : ℝ)])
    [⟨0, "f", "/p", some "t", "txt", "[1]", some "openai"⟩] none "q" 1 "openai"
    ⟨0, "f", "/p", some "t", "txt", "[1]", some "openai"⟩
    (by simp [retrieveContext, candidatesFor, topicTruthy, embCandidates])

/-- C10 witness: the round-trip applied to the default topic
`"designer genes"`. -/
theorem slug_roundtrip_witness :
    topicToSlug ⟨joinWith [' '] ["designer".data, "genes".data]⟩ =
      ⟨joinWith ['_'] ["designer".data, "genes".data]⟩ ∧
    slugToTopic (topicToSlug ⟨joinWith [' '] ["designer".data, "genes".data]⟩) =
      ⟨joinWith [' '] ["designer".data, "genes".data]⟩ :=
  slug_roundtrip ["designer".data, "genes".data] (by decide) (by decide)

/-! ### C7: tabular round-trip -/

theorem strExt (s t : String) (h : s.data = t.data) : s = t := by
  cases s; cases t; exact congrArg String.mk h

/-- The single data row of the sample CSV normalizes to the expected fact
line, whatever the date and tournament strings are. -/
theorem sciolyRowLine_sample (d t : String) :
    sciolyRowLine d t 0 1 2 3 4 (-1) "\"Lincoln HS\",\"A\",1,120,\"CA\"" =
      some (d ++ " | " ++ t ++ " | Lincoln HS Team A | rank=1 | total=120 | state=CA") := by
  rw [sciolyRowLine]
  rw [show splitCsvLine "\"Lincoln HS\",\"A\",1,120,\"CA\"" =
    ["Lincoln HS", "A", "1", "120", "CA"] from by decide]
  rw [show jsAt ["Lincoln HS", "A", "1", "120", "CA"] 0 = "Lincoln HS" from by decide]
  rw [show jsAt ["Lincoln HS", "A", "1", "120", "CA"] 2 = "1" from by decide]
  rw [show jsAt ["Lincoln HS", "A", "1", "120", "CA"] 3 = "120" from by decide]
  rw [if_pos (show (1 : Int) ≥ 0 from by decide)]
  rw [if_pos (show (4 : Int) ≥ 0 from by decide)]
  rw [if_neg (show ¬((-1 : Int) ≥ 0) from by decide)]
  rw [show jsAt ["Lincoln HS", "A", "1", "120", "CA"] 1 = "A" from by decide]
  rw [show jsAt ["Lincoln HS", "A", "1", "120", "CA"] 4 = "CA" from by decide]
  rw [show normalizeSchoolTeamLabel "Lincoln HS" "A" = "Lincoln HS Team A" from by decide]
  rw [if_neg (show ¬("Lincoln HS Team A" = "" ∨ ("1" : String) = "" ∨ ("120" : String) = "")
    from by decide)]
  rw [if_pos (show ("CA" : String) ≠ "" from by decide)]
  rw [if_neg (show ¬(("" : String) ≠ "") from by decide)]
  refine congrArg some (strExt _ _ ?_)
  simp only [String.data_append, List.append_assoc, List.append_nil]
  rw [List.append_right_inj, List.append_right_inj, List.append_right_inj]
  decide

/-- Evaluating `buildSciolyResultsSnippet` on the sample CSV: the concrete
header is parsed, the one data row becomes the fact line, and only the
filename-derived parts stay symbolic. -/
theorem scioly_sample_eval (filename : String) :
    buildSciolyResultsSnippet sampleResultsCsv filename =
      jsSlice ("Scioly results extracted from " ++ jsBasename filename ++
        ".\nTreat each team label as distinct (example: Team A vs Team B).\n" ++
        (parseTournamentMeta filename).1 ++ " | " ++ (parseTournamentMeta filename).2 ++
        " | Lincoln HS Team A | rank=1 | total=120 | state=CA") 24000 := by
  rw [buildSciolyResultsSnippet]
  simp only [show ((splitLines sampleResultsCsv).map jsTrim).filter (fun l => l ≠ "") =
      ["school,team,rank,total,state", "\"Lincoln HS\",\"A\",1,120,\"CA\""] from by decide,
    show (splitCsvLine "school,team,rank,total,state").map jsToLower =
      ["school", "team", "rank", "total", "state"] from by decide,
    show jsIndexOf ["school", "team", "rank", "total", "state"] "school" = 0 from by decide,
    show jsIndexOf ["school", "team", "rank", "total", "state"] "team" = 1 from by decide,
    show jsIndexOf ["school", "team", "rank", "total", "state"] "rank" = 2 from by decide,
    show jsIndexOf ["school", "team", "rank", "total", "state"] "total" = 3 from by decide,
    show jsIndexOf ["school", "team", "rank", "total", "state"] "state" = 4 from by decide,
    show jsIndexOf ["school", "team", "rank", "total", "state"] "track" = -1 from by decide,
    if_neg (show ¬((0 : Int) < 0 ∨ (2 : Int) < 0 ∨ (3 : Int) < 0) from by decide)]
  rw [sciolyNormalizedLines]
  simp only [sciolyRowLine_sample, List.filterMap_cons, List.filterMap_nil]
  simp only [joinNl]
  refine congrArg (fun s => jsSlice s 24000) (strExt _ _ ?_)
  simp only [String.data_append, List.append_assoc, List.cons_append,
    List.singleton_append, List.nil_append]

theorem dropWhile_of_all_neg (p : Char → Bool) (l : List Char)
    (h : ∀ c ∈ l, p c = false) : l.dropWhile p = l := by
  cases l with
  | nil => rfl
  | cons c t => exact List.dropWhile_cons_of_neg (by simp [h c (by simp)])

theorem trimChars_length_le (cs : List Char) : (trimChars cs).length ≤ cs.length := by
  rw [trimChars]
  calc ((cs.dropWhile isJsWs).reverse.dropWhile isJsWs).reverse.length
      = ((cs.dropWhile isJsWs).reverse.dropWhile isJsWs).length := List.length_reverse _
    _ ≤ (cs.dropWhile isJsWs).reverse.length := dropWhileLenLe _ _
    _ = (cs.dropWhile isJsWs).length := List.length_reverse _
    _ ≤ cs.length := dropWhileLenLe _ _

theorem stripUnderscoreC_length_le (cs : List Char) :
    (stripUnderscoreC cs).length ≤ cs.length := by
  rw [stripUnderscoreC]
  split
  · next c rest heq =>
    split
    · have hlen : cs.length = rest.length + 2 := by
        have := congrArg List.length heq
        simp only [List.length_reverse, List.length_cons] at this
        omega
      rw [List.length_reverse]
      omega
    · exact le_refl _
  · exact le_refl _

theorem underscoreRunsToSpaces_length_le (cs : List Char) :
    (underscoreRunsToSpaces cs).length ≤ cs.length := by
  induction cs using underscoreRunsToSpaces.induct with
  | case1 => simp [underscoreRunsToSpaces]
  | case2 rest ih =>
    rw [underscoreRunsToSpaces]
    have hd := dropWhileLenLe (fun c => decide (c = '_')) rest
    simp only [List.length_cons]
    omega
  | case3 c rest hne ih =>
    rw [underscoreRunsToSpaces]
    · simp only [List.length_cons]
      omega
    · exact hne

theorem foldlSlash_length (l : List Char) : ∀ acc : List Char,
    ((l.foldl (fun acc c => if c = '/' then [] else acc ++ [c]) acc).length ≤
      acc.length + l.length) := by
  induction l with
  | nil => intro acc; simp
  | cons c rest ih =>
    intro acc
    rw [List.foldl_cons]
    by_cases h : c = '/'
    · rw [if_pos h]
      have := ih []
      simp only [List.length_nil, List.length_cons] at *
      omega
    · rw [if_neg h]
      have := ih (acc ++ [c])
      simp only [List.length_append, List.length_cons, List.length_nil] at *
      omega

theorem basenameChars_length_le (cs : List Char) :
    (basenameChars cs).length ≤ cs.length := by
  rw [basenameChars]
  have h1 := foldlSlash_length ((cs.reverse.dropWhile (fun c => c = '/'))).reverse []
  have h2 := dropWhileLenLe (fun c => decide (c = '/')) cs.reverse
  simp only [List.length_nil, List.length_reverse] at h1 h2 ⊢
  omega

theorem basenameChars_no_slash (cs : List Char) (h : ∀ c ∈ cs, c ≠ '/') :
    basenameChars cs = cs := by
  rw [basenameChars]
  have h1 : cs.reverse.dropWhile (fun c => decide (c = '/')) = cs.reverse := by
    apply dropWhile_of_all_neg
    intro c hc
    simp [h c (List.mem_reverse.mp hc)]
  show ((cs.reverse.dropWhile (fun c => decide (c = '/'))).reverse).foldl _ [] = cs
  rw [h1, List.reverse_reverse]
  have hgen : ∀ l acc : List Char, (∀ c ∈ l, c ≠ '/') →
      (l.foldl (fun acc c => if c = '/' then [] else acc ++ [c]) acc) = acc ++ l := by
    intro l
    induction l with
    | nil => intro acc _; simp
    | cons c rest ih =>
      intro acc hl
      rw [List.foldl_cons, if_neg (hl c (by simp)), ih (acc ++ [c])
        (fun d hd => hl d (by simp [hd]))]
      simp
  rw [hgen cs [] h]
  simp

theorem jsBasenameDropSuffix_length_le (s suffix : String) :
    (jsBasenameDropSuffix s suffix).data.length ≤ s.data.length := by
  rw [jsBasenameDropSuffix]
  have hbn := basenameChars_length_le s.data
  split
  · show ((basenameChars s.data).take _).length ≤ _
    rw [List.length_take]
    omega
  · exact hbn

theorem matchDateUnderscore_some (cs : List Char) (d r : List Char)
    (h : matchDateUnderscore cs = some (d, r)) :
    d.length = 10 ∧ cs.length = r.length + 11 := by
  rw [matchDateUnderscore.eq_def] at h
  split at h
  · split at h
    · injection h with h
      injection h with h1 h2
      subst h1; subst h2
      refine ⟨rfl, ?_⟩
      simp
    · simp at h
  · simp at h

theorem parseTournamentMeta_lengths (f : String) :
    (parseTournamentMeta f).1.data.length ≤ 12 ∧
    (parseTournamentMeta f).2.data.length ≤ f.data.length := by
  rw [parseTournamentMeta]
  have hbl : (jsBasenameDropSuffix f (jsExtname f)).data.length ≤ f.data.length :=
    jsBasenameDropSuffix_length_le f (jsExtname f)
  cases hm : matchDateUnderscore (jsBasenameDropSuffix f (jsExtname f)).data with
  | none =>
    exact ⟨(show ("unknown-date" : String).data.length ≤ 12 by decide), hbl⟩
  | some dr =>
    obtain ⟨d, r⟩ := dr
    obtain ⟨hd, hr⟩ := matchDateUnderscore_some _ d r hm
    refine ⟨?_, ?_⟩
    · show d.length ≤ 12
      omega
    · show (jsTrim ⟨underscoreRunsToSpaces (stripUnderscoreC r)⟩).data.length ≤ _
      calc (jsTrim ⟨underscoreRunsToSpaces (stripUnderscoreC r)⟩).data.length
          ≤ (underscoreRunsToSpaces (stripUnderscoreC r)).length := trimChars_length_le _
        _ ≤ (stripUnderscoreC r).length := underscoreRunsToSpaces_length_le _
        _ ≤ r.length := stripUnderscoreC_length_le r
        _ ≤ f.data.length := by omega

theorem jsSlice_of_le (s : String) (n : Nat) (h : s.data.length ≤ n) :
    jsSlice s n = s := by
  rw [jsSlice]
  exact strExt _ _ (List.take_of_length_le h)

theorem contains_take_prefix2_absent (x y r t : List Char) (c : Char) (n : Nat)
    (hlen : n ≤ x.length + y.length) (hct : c ∈ t) (hcx : c ∉ x) (hcy : c ∉ y) :
    listContains ((x ++ (y ++ r)).take n) t = false := by
  rw [← List.append_assoc]
  rw [List.take_append_of_le_length (by rw [List.length_append]; omega)]
  cases hcon : listContains ((x ++ y).take n) t with
  | false => rfl
  | true =>
    exfalso
    have hsub := listContains_subset _ _ hcon c hct
    have h2 := List.take_subset n (x ++ y) hsub
    rcases List.mem_append.mp h2 with h | h
    · exact hcx h
    · exact hcy h

/-- C7 counterexample.  The claim quantifies over every filename, but the
normalized output is capped at 24000 characters and the filename appears in
the header line before any data line: with a 24000-character filename the
cap cuts the output inside the header, so no emitted line contains
`rank=1`. -/
theorem scioly_truncation_cex :
    strContains (buildSciolyResultsSnippet sampleResultsCsv
      ⟨List.replicate 24000 'a'⟩) "rank=1" = false := by
  rw [scioly_sample_eval]
  have hb : jsBasename ⟨List.replicate 24000 'a'⟩ = ⟨List.replicate 24000 'a'⟩ := by
    rw [jsBasename]
    exact congrArg String.mk (basenameChars_no_slash _ (fun c hc => by
      rw [List.eq_of_mem_replicate hc]; decide))
  rw [hb]
  rw [strContains, jsSlice]
  rw [String.data_append, String.data_append, String.data_append,
    String.data_append, String.data_append, String.data_append]
  have h2 : ((⟨List.replicate 24000 'a'⟩ : String).data).length = 24000 := by
    show (List.replicate 24000 'a').length = 24000
    rw [List.length_replicate]
  have hry : '=' ∉ (⟨List.replicate 24000 'a'⟩ : String).data := by
    intro hmem
    have heq : '=' = 'a' :=
      List.eq_of_mem_replicate (show '=' ∈ List.replicate 24000 'a' from hmem)
    exact absurd heq (by decide)
  have h1 : (("Scioly results extracted from " : String).data).length = 30 := by decide
  have hshape : ∀ A B C D E F G : List Char,
      A ++ B ++ C ++ D ++ E ++ F ++ G = A ++ (B ++ (C ++ D ++ E ++ F ++ G)) := by
    intro A B C D E F G
    simp only [List.append_assoc]
  rw [hshape]
  exact contains_take_prefix2_absent ("Scioly results extracted from " : String).data
    (⟨List.replicate 24000 'a'⟩ : String).data _ ("rank=1" : String).data '=' 24000
    (by omega) (by decide) (by decide) hry

/-- C7 (amended): for every filename of length at most 1000 — which covers
every relative source name the importer produces — normalizing the sample
CSV yields output containing `Lincoln HS Team A`, `rank=1`, `total=120` and
`state=CA`; the quote-aware splitter parses the quoted fields.  (For
pathologically long filenames the 24000-character cap can cut the data line,
as the counterexample shows.) -/
theorem scioly_roundtrip_amended (filename : String) (hlen : filename.data.length ≤ 1000) :
    strContains (buildSciolyResultsSnippet sampleResultsCsv filename)
      "Lincoln HS Team A" = true ∧
    strContains (buildSciolyResultsSnippet sampleResultsCsv filename) "rank=1" = true ∧
    strContains (buildSciolyResultsSnippet sampleResultsCsv filename) "total=120" = true ∧
    strContains (buildSciolyResultsSnippet sampleResultsCsv filename) "state=CA" = true := by
  rw [scioly_sample_eval]
  have hbase : (jsBasename filename).data.length ≤ 1000 := by
    rw [jsBasename]
    exact le_trans (basenameChars_length_le filename.data) hlen
  obtain ⟨hd, ht⟩ := parseTournamentMeta_lengths filename
  have hfits : ("Scioly results extracted from " ++ jsBasename filename ++
      ".\nTreat each team label as distinct (example: Team A vs Team B).\n" ++
      (parseTournamentMeta filename).1 ++ " | " ++ (parseTournamentMeta filename).2 ++
      " | Lincoln HS Team A | rank=1 | total=120 | state=CA").data.length ≤ 24000 := by
    simp only [String.data_append, List.length_append, List.length_cons,
      List.length_nil]
    omega
  rw [jsSlice_of_le _ _ hfits]
  refine ⟨?_, ?_, ?_, ?_⟩ <;>
    exact strContains_append_right _ _ _ (by decide)

/-- C7 witness: the amended round-trip applied at a realistic filename. -/
theorem scioly_roundtrip_amended_witness :
    strContains (buildSciolyResultsSnippet sampleResultsCsv
      "2024-01-05_golden_gate_c.csv") "Lincoln HS Team A" = true ∧
    strContains (buildSciolyResultsSnippet sampleResultsCsv
      "2024-01-05_golden_gate_c.csv") "rank=1" = true ∧
    strContains (buildSciolyResultsSnippet sampleResultsCsv
      "2024-01-05_golden_gate_c.csv") "total=120" = true ∧
    strContains (buildSciolyResultsSnippet sampleResultsCsv
      "2024-01-05_golden_gate_c.csv") "state=CA" = true :=
  scioly_roundtrip_amended "2024-01-05_golden_gate_c.csv" (by decide)

end Scioly
